import Mathlib

/-!
Verification development for the audio matching engine of the
`ffmpeg-scripts` repository (`scripts/match-audio.py`,
`scripts/match-audio-transcription.py`, `scripts/sync-second-room-audio.py`).

The Python sources are embedded shallowly:

* Python `str` values are `List Char`; `str.lower()` / `str.split()` are
  modelled character by character (ASCII case folding, whitespace runs).
* `difflib.SequenceMatcher` (CPython, `isjunk=None`, `autojunk=True`) is
  implemented faithfully: the `b2j` occurrence map with the popularity
  heuristic, the `find_longest_match` dynamic program with its extension
  loops, the `get_matching_blocks` recursion, and `ratio()`.
* Audio samples are `ℚ`; `np.std`'s square root is passed in as an explicit
  function argument `sqrtFn` (the scripts' arithmetic is floating point, the
  embedding is exact rational arithmetic with the square root abstracted).
  Concrete instances below always come with the side conditions
  `sqrtFn v ^ 2 = v ∧ 0 ≤ sqrtFn v` for every variance `v` actually consulted,
  so they compute exactly what `np.std` computes on those inputs.
* `scipy.signal.correlate(·, ·, mode='full')` is the full linear
  cross-correlation (the spec requires the FFT path to be algorithmically
  equivalent to it); `np.argmax` returns the first index of the maximum.
* External effects (ffmpeg extraction, whisper transcription, cache writes)
  are modelled as explicit traces or oracle arguments.
-/

/-! ### Python string primitives -/

/-- A Python string, as its list of characters. -/
abbrev PyStr := List Char

/-- Python `str.lower()` (ASCII case folding). -/
def pyLower (s : PyStr) : PyStr := s.map Char.toLower

/-- Helper for `pySplit`: `cur` is the current in-progress word, reversed. -/
def splitWSGo : List Char → List Char → List PyStr
  | cur, [] => if cur = [] then [] else [cur.reverse]
  | cur, c :: rest =>
    if c.isWhitespace then
      (if cur = [] then [] else [cur.reverse]) ++ splitWSGo [] rest
    else
      splitWSGo (c :: cur) rest

/-- Python `str.split()` with no argument: split on whitespace runs and drop
empty fields. -/
def pySplit (s : PyStr) : List PyStr := splitWSGo [] s

/-- `text.lower().split()`, the tokenisation both `text_similarity` and
`find_time_offset_by_words` apply to a transcript. -/
def tokens (s : PyStr) : List PyStr := pySplit (pyLower s)

/-! ### difflib.SequenceMatcher, specialised to `isjunk = None`, `autojunk = True`

The scripts call `SequenceMatcher(None, t1, t2).ratio()` on token lists, so the
element type is a token (`PyStr`). With `isjunk = None` the junk set `bjunk` is
empty, hence the two junk-extension loops of `find_longest_match` never run and
are omitted; the popularity heuristic (`autojunk`) is kept. -/

/-- A transcript token. -/
abbrev Tok := PyStr

/-- All indices `j` with `b[j] = x`, ascending: the `b2j` entry for `x` before
the autojunk purge. -/
def tokPositions (x : Tok) (b : List Tok) : List ℕ :=
  (List.range b.length).filter (fun j => decide (b.getD j [] = x))

/-- `SequenceMatcher.__chain_b`: the occurrence map `b2j`. With
`autojunk = True` and `len(b) >= 200`, an element occurring more than
`len(b) // 100 + 1` times is "popular" and its entry is deleted. -/
def b2j (b : List Tok) (x : Tok) : List ℕ :=
  let idxs := tokPositions x b
  if 200 ≤ b.length ∧ b.length / 100 + 1 < idxs.length then [] else idxs

/-- One inner-loop step of `find_longest_match`'s dynamic program, at row `i`
and column `j` (an occurrence of `a[i]` in `b`): `k = j2len.get(j-1, 0) + 1` is
read from the previous row `old`, written into the new row, and taken as the
running best when strictly longer than `bestsize`
(`besti, bestj, bestsize = i-k+1, j-k+1, k`). -/
def jStep (i : ℕ) (old : ℕ → ℕ) (acc : (ℕ → ℕ) × ℕ × ℕ × ℕ) (j : ℕ) :
    (ℕ → ℕ) × ℕ × ℕ × ℕ :=
  let k := (if j = 0 then 0 else old (j - 1)) + 1
  let m := fun j2 => if j2 = j then k else acc.1 j2
  if acc.2.2.2 < k then (m, i + 1 - k, j + 1 - k, k) else (m, acc.2)

/-- One outer-loop row of `find_longest_match`: iterate over the occurrences of
`a[i]` in `b` restricted to `[blo, bhi)` (ascending, as in
`for j in b2j.get(a[i], nothing)` with the `continue`/`break` guards);
`newj2len` starts empty, the previous row is read through `st.1`. -/
def rowStep (a b : List Tok) (blo bhi : ℕ) (st : (ℕ → ℕ) × ℕ × ℕ × ℕ) (i : ℕ) :
    (ℕ → ℕ) × ℕ × ℕ × ℕ :=
  ((b2j b (a.getD i [])).filter (fun j => decide (blo ≤ j) && decide (j < bhi))).foldl
    (jStep i st.1) ((fun _ => 0), st.2)

/-- The dynamic-programming phase of `find_longest_match` over rows
`i ∈ range(alo, ahi)`, starting from `besti, bestj, bestsize = alo, blo, 0` and
an empty `j2len`. -/
def flmDP (a b : List Tok) (alo ahi blo bhi : ℕ) : (ℕ → ℕ) × ℕ × ℕ × ℕ :=
  ((List.range ahi).drop alo).foldl (rowStep a b blo bhi) ((fun _ => 0), alo, blo, 0)

/-- The first extension loop of `find_longest_match` (with `bjunk = ∅`):
`while besti > alo and bestj > blo and a[besti-1] == b[bestj-1]:
besti, bestj, bestsize = besti-1, bestj-1, bestsize+1`. -/
def extendLeft (a b : List Tok) (alo blo i j k : ℕ) : ℕ × ℕ × ℕ :=
  if h : alo < i ∧ blo < j ∧ a.getD (i - 1) [] = b.getD (j - 1) [] then
    extendLeft a b alo blo (i - 1) (j - 1) (k + 1)
  else (i, j, k)
termination_by i
decreasing_by omega

/-- The second extension loop of `find_longest_match` (with `bjunk = ∅`):
`while besti+bestsize < ahi and bestj+bestsize < bhi and
a[besti+bestsize] == b[bestj+bestsize]: bestsize += 1`. -/
def extendRight (a b : List Tok) (ahi bhi i j k : ℕ) : ℕ × ℕ × ℕ :=
  if h : i + k < ahi ∧ j + k < bhi ∧ a.getD (i + k) [] = b.getD (j + k) [] then
    extendRight a b ahi bhi i j (k + 1)
  else (i, j, k)
termination_by ahi - (i + k)
decreasing_by omega

/-- `SequenceMatcher.find_longest_match(alo, ahi, blo, bhi)`: the dynamic
program followed by the two (non-junk) extension loops. The junk-extension
loops are omitted because `isjunk = None` makes their guard `isbjunk(...)`
always false. -/
def findLongestMatch (a b : List Tok) (alo ahi blo bhi : ℕ) : ℕ × ℕ × ℕ :=
  let dp := (flmDP a b alo ahi blo bhi).2
  let l := extendLeft a b alo blo dp.1 dp.2.1 dp.2.2
  extendRight a b ahi bhi l.1 l.2.1 l.2.2

/-! #### Range and validity invariants of `find_longest_match` -/

/-- The row map only holds runs that fit inside `[blo, bhi)` horizontally and
inside the `top` processed rows vertically. -/
def MapOK (alo blo bhi top : ℕ) (m : ℕ → ℕ) : Prop :=
  ∀ j, m j ≠ 0 → blo ≤ j ∧ j < bhi ∧ m j + blo ≤ j + 1 ∧ m j + alo ≤ top

/-- The running best is either the untouched initial value `(alo, blo, 0)` or a
nonempty match lying inside `[alo, top) × [blo, bhi)`. -/
def BestOK (alo blo bhi top : ℕ) (bst : ℕ × ℕ × ℕ) : Prop :=
  bst = (alo, blo, 0) ∨
    (bst.2.2 ≠ 0 ∧ alo ≤ bst.1 ∧ bst.1 + bst.2.2 ≤ top ∧
      blo ≤ bst.2.1 ∧ bst.2.1 + bst.2.2 ≤ bhi)

theorem MapOK.mono_map {alo blo bhi top top' : ℕ} {m : ℕ → ℕ} (h : MapOK alo blo bhi top m)
    (hle : top ≤ top') : MapOK alo blo bhi top' m := by
  intro j hj
  obtain ⟨h1, h2, h3, h4⟩ := h j hj
  exact ⟨h1, h2, h3, h4.trans hle⟩

theorem BestOK.mono_best {alo blo bhi top top' : ℕ} {bst : ℕ × ℕ × ℕ}
    (h : BestOK alo blo bhi top bst) (hle : top ≤ top') : BestOK alo blo bhi top' bst := by
  rcases h with h | ⟨h1, h2, h3, h4, h5⟩
  · exact Or.inl h
  · exact Or.inr ⟨h1, h2, h3.trans hle, h4, h5⟩

theorem jStep_ok (i alo blo bhi : ℕ) (old : ℕ → ℕ) (hold : MapOK alo blo bhi i old)
    (hi : alo ≤ i) (acc : (ℕ → ℕ) × ℕ × ℕ × ℕ) (j : ℕ) (hj : blo ≤ j ∧ j < bhi)
    (hm : MapOK alo blo bhi (i + 1) acc.1) (hb : BestOK alo blo bhi (i + 1) acc.2) :
    MapOK alo blo bhi (i + 1) (jStep i old acc j).1 ∧
      BestOK alo blo bhi (i + 1) (jStep i old acc j).2 := by
  have hk1 : (if j = 0 then 0 else old (j - 1)) + 1 + alo ≤ i + 1 ∧
      (if j = 0 then 0 else old (j - 1)) + 1 + blo ≤ j + 1 := by
    by_cases h0 : j = 0
    · rw [if_pos h0]; omega
    · rw [if_neg h0]
      by_cases hz : old (j - 1) = 0
      · rw [hz]; omega
      · have := hold (j - 1) hz; omega
  simp only [jStep]
  generalize hg : (if j = 0 then 0 else old (j - 1)) + 1 = k at hk1 ⊢
  have hk0 : k ≠ 0 := by omega
  by_cases hlt : acc.2.2.2 < k
  · rw [if_pos hlt]
    refine ⟨?_, ?_⟩
    · intro j2 hj2
      dsimp only at hj2 ⊢
      by_cases hjj : j2 = j
      · subst hjj
        rw [if_pos rfl] at hj2 ⊢
        exact ⟨hj.1, hj.2, by omega, by omega⟩
      · rw [if_neg hjj] at hj2 ⊢
        exact hm j2 hj2
    · refine Or.inr ?_
      show k ≠ 0 ∧ alo ≤ i + 1 - k ∧ (i + 1 - k) + k ≤ i + 1 ∧ blo ≤ j + 1 - k ∧
        (j + 1 - k) + k ≤ bhi
      exact ⟨hk0, by omega, by omega, by omega, by omega⟩
  · rw [if_neg hlt]
    refine ⟨?_, ?_⟩
    · intro j2 hj2
      dsimp only at hj2 ⊢
      by_cases hjj : j2 = j
      · subst hjj
        rw [if_pos rfl] at hj2 ⊢
        exact ⟨hj.1, hj.2, by omega, by omega⟩
      · rw [if_neg hjj] at hj2 ⊢
        exact hm j2 hj2
    · dsimp only
      exact hb

theorem jfold_ok (i alo blo bhi : ℕ) (old : ℕ → ℕ)
    (hold : MapOK alo blo bhi i old) (hi : alo ≤ i) :
    ∀ (js : List ℕ) (acc : (ℕ → ℕ) × ℕ × ℕ × ℕ),
      (∀ j ∈ js, blo ≤ j ∧ j < bhi) →
      MapOK alo blo bhi (i + 1) acc.1 →
      BestOK alo blo bhi (i + 1) acc.2 →
      MapOK alo blo bhi (i + 1) (js.foldl (jStep i old) acc).1 ∧
        BestOK alo blo bhi (i + 1) (js.foldl (jStep i old) acc).2 := by
  intro js
  induction js with
  | nil => intro acc _ hm hb; exact ⟨hm, hb⟩
  | cons j rest ih =>
    intro acc hjs hm hb
    rw [List.foldl_cons]
    obtain ⟨hm', hb'⟩ := jStep_ok i alo blo bhi old hold hi acc j
      (hjs j (List.mem_cons_self j rest)) hm hb
    exact ih (jStep i old acc j) (fun x hx => hjs x (List.mem_cons_of_mem j hx)) hm' hb'

theorem flmDP_rows_empty (a b : List Tok) (alo ahi blo bhi : ℕ) (h : ahi ≤ alo) :
    flmDP a b alo ahi blo bhi = ((fun _ => 0), alo, blo, 0) := by
  unfold flmDP
  rw [List.drop_eq_nil_of_le (by simpa using h)]
  rfl

theorem flmDP_succ (a b : List Tok) (alo ahi blo bhi : ℕ) (h : alo ≤ ahi) :
    flmDP a b alo (ahi + 1) blo bhi =
      rowStep a b blo bhi (flmDP a b alo ahi blo bhi) ahi := by
  unfold flmDP
  rw [List.range_succ, List.drop_append_of_le_length (by simpa using h), List.foldl_append]
  rfl

theorem flmDP_ok (a b : List Tok) (alo blo bhi : ℕ) :
    ∀ ahi, MapOK alo blo bhi ahi (flmDP a b alo ahi blo bhi).1 ∧
      BestOK alo blo bhi ahi (flmDP a b alo ahi blo bhi).2 := by
  intro ahi
  induction ahi with
  | zero =>
    rw [flmDP_rows_empty a b alo 0 blo bhi (Nat.zero_le alo)]
    exact ⟨fun j hj => absurd rfl hj, Or.inl rfl⟩
  | succ n ih =>
    by_cases h : alo ≤ n
    · rw [flmDP_succ a b alo n blo bhi h]
      unfold rowStep
      refine jfold_ok n alo blo bhi (flmDP a b alo n blo bhi).1
        (ih.1.mono_map (Nat.le_refl n) |>.mono_map (Nat.le_refl n)) h _ _ ?_ ?_ ?_
      · intro j hj
        have := List.mem_filter.mp hj
        simp only [Bool.and_eq_true, decide_eq_true_eq] at this
        exact this.2
      · exact fun j hj => absurd rfl hj
      · exact ih.2.mono_best (Nat.le_succ n)
    · rw [flmDP_rows_empty a b alo (n + 1) blo bhi (by omega)]
      exact ⟨fun j hj => absurd rfl hj, Or.inl rfl⟩

theorem extendLeft_ok (a b : List Tok) (alo blo : ℕ) :
    ∀ i j k, alo ≤ i → blo ≤ j →
      alo ≤ (extendLeft a b alo blo i j k).1 ∧
        blo ≤ (extendLeft a b alo blo i j k).2.1 ∧
        (extendLeft a b alo blo i j k).1 + (extendLeft a b alo blo i j k).2.2 = i + k ∧
        (extendLeft a b alo blo i j k).2.1 + (extendLeft a b alo blo i j k).2.2 = j + k := by
  intro i j k
  induction i, j, k using extendLeft.induct a b alo blo with
  | case1 i j k h ih =>
    intro _ _
    rw [extendLeft, dif_pos h]
    obtain ⟨h1, h2, h3, h4⟩ := ih (by omega) (by omega)
    exact ⟨h1, h2, by omega, by omega⟩
  | case2 i j k h =>
    intro hi hj
    rw [extendLeft, dif_neg h]
    exact ⟨hi, hj, rfl, rfl⟩

theorem extendRight_ok (a b : List Tok) (ahi bhi : ℕ) :
    ∀ i j k, i + k ≤ ahi → j + k ≤ bhi →
      (extendRight a b ahi bhi i j k).1 = i ∧
        (extendRight a b ahi bhi i j k).2.1 = j ∧
        k ≤ (extendRight a b ahi bhi i j k).2.2 ∧
        i + (extendRight a b ahi bhi i j k).2.2 ≤ ahi ∧
        j + (extendRight a b ahi bhi i j k).2.2 ≤ bhi := by
  intro i j k
  induction k using extendRight.induct a b ahi bhi i j with
  | case1 k h ih =>
    intro _ _
    rw [extendRight, dif_pos h]
    obtain ⟨h1, h2, h3, h4, h5⟩ := ih (by omega) (by omega)
    exact ⟨h1, h2, by omega, h4, h5⟩
  | case2 k h =>
    intro hi hj
    rw [extendRight, dif_neg h]
    exact ⟨rfl, rfl, Nat.le_refl k, hi, hj⟩

/-- A nonempty match returned by `find_longest_match` lies inside the requested
ranges: `alo ≤ i`, `i + k ≤ ahi`, `blo ≤ j`, `j + k ≤ bhi`. -/
theorem flm_pos_bounds (a b : List Tok) (alo ahi blo bhi : ℕ)
    (hk : (findLongestMatch a b alo ahi blo bhi).2.2 ≠ 0) :
    alo ≤ (findLongestMatch a b alo ahi blo bhi).1 ∧
      (findLongestMatch a b alo ahi blo bhi).1 + (findLongestMatch a b alo ahi blo bhi).2.2 ≤ ahi ∧
      blo ≤ (findLongestMatch a b alo ahi blo bhi).2.1 ∧
      (findLongestMatch a b alo ahi blo bhi).2.1 + (findLongestMatch a b alo ahi blo bhi).2.2
        ≤ bhi := by
  have hdp := (flmDP_ok a b alo blo bhi ahi).2
  revert hk
  simp only [findLongestMatch]
  generalize hD : (flmDP a b alo ahi blo bhi).2 = dp at hdp
  obtain ⟨di, dj, dk⟩ := dp
  rcases hdp with heq | ⟨h1, h2, h3, h4, h5⟩
  · simp only [Prod.mk.injEq] at heq
    obtain ⟨e1, e2, e3⟩ := heq
    subst e1
    subst e2
    subst e3
    simp only []
    rw [extendLeft, dif_neg (by omega)]
    simp only []
    by_cases hg : di + 0 < ahi ∧ dj + 0 < bhi ∧ a.getD (di + 0) [] = b.getD (dj + 0) []
    · intro _
      have hR := extendRight_ok a b ahi bhi di dj 0 (by omega) (by omega)
      omega
    · rw [extendRight, dif_neg hg]
      intro hknz
      exact absurd rfl hknz
  · intro _
    simp only [] at h1 h2 h3 h4 h5 ⊢
    have hL := extendLeft_ok a b alo blo di dj dk h2 h4
    set l := extendLeft a b alo blo di dj dk with hldef
    have hR := extendRight_ok a b ahi bhi l.1 l.2.1 l.2.2 (by omega) (by omega)
    omega

/-- `SequenceMatcher.get_matching_blocks`, reduced to the total number of
matched elements (the only quantity `ratio()` uses): recurse on
`find_longest_match`; when a nonempty block `(i, j, k)` is found, the region
left of it is explored if `alo < i and blo < j`, the region right of it if
`i+k < ahi and j+k < bhi`. The queue order and the adjacent-block collapsing of
the Python code permute and merge blocks but do not change the total size. -/
def matchingTotal (a b : List Tok) (alo ahi blo bhi : ℕ) : ℕ :=
  let r := findLongestMatch a b alo ahi blo bhi
  if hk : r.2.2 = 0 then 0
  else
    (if hl : alo < r.1 ∧ blo < r.2.1 then matchingTotal a b alo r.1 blo r.2.1 else 0) +
      r.2.2 +
      (if hr : r.1 + r.2.2 < ahi ∧ r.2.1 + r.2.2 < bhi then
        matchingTotal a b (r.1 + r.2.2) ahi (r.2.1 + r.2.2) bhi else 0)
termination_by ahi - alo
decreasing_by
  · have hb := flm_pos_bounds a b alo ahi blo bhi hk
    have hreq : findLongestMatch a b alo ahi blo bhi = r := rfl
    rw [hreq] at hb ⊢
    omega
  · have hb := flm_pos_bounds a b alo ahi blo bhi hk
    have hreq : findLongestMatch a b alo ahi blo bhi = r := rfl
    rw [hreq] at hb ⊢
    omega

/-- Unfolding equation for `matchingTotal` with the `let` inlined. -/
theorem matchingTotal_eq (a b : List Tok) (alo ahi blo bhi : ℕ) :
    matchingTotal a b alo ahi blo bhi =
      if (findLongestMatch a b alo ahi blo bhi).2.2 = 0 then 0
      else
        (if alo < (findLongestMatch a b alo ahi blo bhi).1 ∧
            blo < (findLongestMatch a b alo ahi blo bhi).2.1 then
          matchingTotal a b alo (findLongestMatch a b alo ahi blo bhi).1 blo
            (findLongestMatch a b alo ahi blo bhi).2.1 else 0) +
          (findLongestMatch a b alo ahi blo bhi).2.2 +
          (if (findLongestMatch a b alo ahi blo bhi).1 +
                (findLongestMatch a b alo ahi blo bhi).2.2 < ahi ∧
              (findLongestMatch a b alo ahi blo bhi).2.1 +
                (findLongestMatch a b alo ahi blo bhi).2.2 < bhi then
            matchingTotal a b
              ((findLongestMatch a b alo ahi blo bhi).1 +
                (findLongestMatch a b alo ahi blo bhi).2.2) ahi
              ((findLongestMatch a b alo ahi blo bhi).2.1 +
                (findLongestMatch a b alo ahi blo bhi).2.2) bhi else 0) := by
  rw [matchingTotal]
  simp only [dite_eq_ite]

/-- `SequenceMatcher.ratio()`: `2.0 * M / T` where `M` is the total size of the
matched blocks and `T` the sum of the sequence lengths; `1.0` when `T = 0`
(`_calculate_ratio`). -/
def ratioOf (a b : List Tok) : ℚ :=
  let m := matchingTotal a b 0 a.length 0 b.length
  if a.length + b.length ≠ 0 then
    2 * (m : ℚ) / ((a.length : ℚ) + (b.length : ℚ))
  else 1

/-- `text_similarity(text1, text2)` of `match-audio-transcription.py`
(lines 62-70): lowercase, split on whitespace, and take the
`SequenceMatcher` ratio of the two token sequences. -/
def text_similarity (text1 text2 : PyStr) : ℚ :=
  ratioOf (tokens text1) (tokens text2)

theorem matchingTotal_le_left (a b : List Tok) :
    ∀ n alo ahi blo bhi, ahi - alo ≤ n → matchingTotal a b alo ahi blo bhi ≤ ahi - alo := by
  intro n
  induction n with
  | zero =>
    intro alo ahi blo bhi hn
    rw [matchingTotal_eq]
    by_cases hk : (findLongestMatch a b alo ahi blo bhi).2.2 = 0
    · rw [if_pos hk]; omega
    · have := flm_pos_bounds a b alo ahi blo bhi hk
      omega
  | succ n ih =>
    intro alo ahi blo bhi hn
    rw [matchingTotal_eq]
    by_cases hk : (findLongestMatch a b alo ahi blo bhi).2.2 = 0
    · rw [if_pos hk]; omega
    · rw [if_neg hk]
      have hb := flm_pos_bounds a b alo ahi blo bhi hk
      set r := findLongestMatch a b alo ahi blo bhi with hr
      by_cases hl : alo < r.1 ∧ blo < r.2.1
      · have h1 := ih alo r.1 blo r.2.1 (by omega)
        by_cases h2 : r.1 + r.2.2 < ahi ∧ r.2.1 + r.2.2 < bhi
        · have h3 := ih (r.1 + r.2.2) ahi (r.2.1 + r.2.2) bhi (by omega)
          rw [if_pos hl, if_pos h2]
          omega
        · rw [if_pos hl, if_neg h2]
          omega
      · by_cases h2 : r.1 + r.2.2 < ahi ∧ r.2.1 + r.2.2 < bhi
        · have h3 := ih (r.1 + r.2.2) ahi (r.2.1 + r.2.2) bhi (by omega)
          rw [if_neg hl, if_pos h2]
          omega
        · rw [if_neg hl, if_neg h2]
          omega

theorem matchingTotal_le_right (a b : List Tok) :
    ∀ n alo ahi blo bhi, bhi - blo ≤ n → matchingTotal a b alo ahi blo bhi ≤ bhi - blo := by
  intro n
  induction n with
  | zero =>
    intro alo ahi blo bhi hn
    rw [matchingTotal_eq]
    by_cases hk : (findLongestMatch a b alo ahi blo bhi).2.2 = 0
    · rw [if_pos hk]; omega
    · have := flm_pos_bounds a b alo ahi blo bhi hk
      omega
  | succ n ih =>
    intro alo ahi blo bhi hn
    rw [matchingTotal_eq]
    by_cases hk : (findLongestMatch a b alo ahi blo bhi).2.2 = 0
    · rw [if_pos hk]; omega
    · rw [if_neg hk]
      have hb := flm_pos_bounds a b alo ahi blo bhi hk
      set r := findLongestMatch a b alo ahi blo bhi with hr
      by_cases hl : alo < r.1 ∧ blo < r.2.1
      · have h1 := ih alo r.1 blo r.2.1 (by omega)
        by_cases h2 : r.1 + r.2.2 < ahi ∧ r.2.1 + r.2.2 < bhi
        · have h3 := ih (r.1 + r.2.2) ahi (r.2.1 + r.2.2) bhi (by omega)
          rw [if_pos hl, if_pos h2]
          omega
        · rw [if_pos hl, if_neg h2]
          omega
      · by_cases h2 : r.1 + r.2.2 < ahi ∧ r.2.1 + r.2.2 < bhi
        · have h3 := ih (r.1 + r.2.2) ahi (r.2.1 + r.2.2) bhi (by omega)
          rw [if_neg hl, if_pos h2]
          omega
        · rw [if_neg hl, if_neg h2]
          omega

/-- The matched total never exceeds either token-sequence length. -/
theorem matchingTotal_le (a b : List Tok) :
    matchingTotal a b 0 a.length 0 b.length ≤ a.length ∧
      matchingTotal a b 0 a.length 0 b.length ≤ b.length := by
  constructor
  · simpa using matchingTotal_le_left a b a.length 0 a.length 0 b.length (by omega)
  · simpa using matchingTotal_le_right a b b.length 0 a.length 0 b.length (by omega)

/-- `SequenceMatcher.ratio()` lies in `[0, 1]`. -/
theorem ratioOf_bounds (a b : List Tok) : 0 ≤ ratioOf a b ∧ ratioOf a b ≤ 1 := by
  unfold ratioOf
  by_cases h : a.length + b.length ≠ 0
  · rw [if_pos h]
    have hM := matchingTotal_le a b
    have hpos : (0 : ℚ) < (a.length : ℚ) + (b.length : ℚ) := by
      have h0 : 0 < a.length + b.length := Nat.pos_of_ne_zero h
      exact_mod_cast h0
    constructor
    · positivity
    · rw [div_le_one hpos]
      have h2 : (matchingTotal a b 0 a.length 0 b.length : ℚ) * 2 ≤
          (a.length : ℚ) + (b.length : ℚ) := by
        have h3 : matchingTotal a b 0 a.length 0 b.length * 2 ≤ a.length + b.length := by omega
        exact_mod_cast h3
      linarith
  · rw [if_neg h]
    norm_num

/-- `find_time_offset_by_words(video_transcript, audio_transcript)` of
`match-audio-transcription.py` (lines 111-138): take the first 50 tokens of the
video transcript as a query window, slide it over the candidate's token
sequence (`for i in range(len(audio_words) - len(video_words) + 1)`, which is
empty when the candidate is shorter than the window), keep the position with
the strictly best `SequenceMatcher` ratio (ties keep the earlier position), and
convert it to seconds at the assumed rate of 2.5 words per second
(`best_pos / 2.5`). Returns 0 when either token sequence is empty. -/
def find_time_offset_by_words (video_transcript audio_transcript : PyStr) : ℚ :=
  let video_words := (tokens video_transcript).take 50
  let audio_words := tokens audio_transcript
  if video_words = [] ∨ audio_words = [] then 0
  else
    let best := (List.range (if video_words.length ≤ audio_words.length then
        audio_words.length - video_words.length + 1 else 0)).foldl
      (fun acc i =>
        let chunk := (audio_words.drop i).take video_words.length
        let score := ratioOf video_words chunk
        if acc.2 < score then (i, score) else acc)
      (0, 0)
    (best.1 : ℚ) / (5 / 2)

/-- Degenerate ranges produce no matched elements. -/
theorem matchingTotal_zero (a b : List Tok) (alo ahi blo bhi : ℕ)
    (h : bhi ≤ blo ∨ ahi ≤ alo) : matchingTotal a b alo ahi blo bhi = 0 := by
  rw [matchingTotal_eq]
  by_cases hk : (findLongestMatch a b alo ahi blo bhi).2.2 = 0
  · rw [if_pos hk]
  · have := flm_pos_bounds a b alo ahi blo bhi hk
    omega

/-- `ratio()` of a nonempty sequence against the empty one is `0`. -/
theorem ratioOf_nil_right (a : List Tok) (h : a ≠ []) : ratioOf a [] = 0 := by
  unfold ratioOf
  have hlen : a.length ≠ 0 := fun hc => h (List.eq_nil_of_length_eq_zero hc)
  rw [matchingTotal_zero a [] 0 a.length 0 ([] : List Tok).length (Or.inl (Nat.le_refl _))]
  simp [hlen]

/-- `ratio()` of the empty sequence against a nonempty one is `0`. -/
theorem ratioOf_nil_left (b : List Tok) (h : b ≠ []) : ratioOf [] b = 0 := by
  unfold ratioOf
  have hlen : b.length ≠ 0 := fun hc => h (List.eq_nil_of_length_eq_zero hc)
  rw [matchingTotal_zero [] b 0 ([] : List Tok).length 0 b.length (Or.inr (Nat.le_refl _))]
  simp [hlen]

/-- `ratio()` of two empty sequences is `1` (the `T = 0` branch of
`_calculate_ratio`). -/
theorem ratioOf_nil_nil : ratioOf [] [] = 1 := by
  unfold ratioOf
  simp

/-! #### Matching a token sequence against itself

`ratio()` of a sequence with itself is `1.0`: the dynamic program always ends
with a best match on the main diagonal (off-diagonal runs are never strictly
longer than a diagonal run already seen, by the ascending scan order), and the
extension loops then grow a diagonal match to the whole sequence. -/

/-- Length of the run of consecutive tokens with non-purged `b2j` entries
(matching `a` against itself) ending at index `i`. -/
def diagRun (a : List Tok) : ℕ → ℕ
  | 0 => if b2j a (a.getD 0 []) = [] then 0 else 1
  | i + 1 => if b2j a (a.getD (i + 1) []) = [] then 0 else diagRun a i + 1

/-- Value of cell `(i, j)` of the self-match dynamic program: the length of the
run of matches ending at row `i`, column `j`. -/
def selfRun (a : List Tok) : ℕ → ℕ → ℕ
  | 0, j => if j ∈ b2j a (a.getD 0 []) then 1 else 0
  | i + 1, j =>
    if j ∈ b2j a (a.getD (i + 1) []) then
      (if j = 0 then 1 else selfRun a i (j - 1) + 1)
    else 0

theorem mem_b2j (b : List Tok) (x : Tok) (j : ℕ) (h : j ∈ b2j b x) :
    j < b.length ∧ b.getD j [] = x := by
  unfold b2j at h
  by_cases hc : 200 ≤ b.length ∧ b.length / 100 + 1 < (tokPositions x b).length
  · rw [if_pos hc] at h
    exact absurd h (List.not_mem_nil j)
  · rw [if_neg hc] at h
    unfold tokPositions at h
    have := List.mem_filter.mp h
    exact ⟨List.mem_range.mp this.1, by simpa using this.2⟩

theorem b2j_self_mem (a : List Tok) (i : ℕ) (hi : i < a.length)
    (h : b2j a (a.getD i []) ≠ []) : i ∈ b2j a (a.getD i []) := by
  unfold b2j at h ⊢
  by_cases hc : 200 ≤ a.length ∧
      a.length / 100 + 1 < (tokPositions (a.getD i []) a).length
  · rw [if_pos hc] at h
    exact absurd rfl h
  · rw [if_neg hc]
    unfold tokPositions
    exact List.mem_filter.mpr ⟨List.mem_range.mpr hi, by simp⟩

theorem diagRun_pos (a : List Tok) (j : ℕ) (h : b2j a (a.getD j []) ≠ []) :
    1 ≤ diagRun a j := by
  cases j with
  | zero => rw [diagRun, if_neg h]
  | succ j => rw [diagRun, if_neg h]; omega

/-- A run ending at `(i, j)` is no longer than the diagonal run ending at row
`i`. -/
theorem selfRun_le_row (a : List Tok) : ∀ i j, selfRun a i j ≤ diagRun a i := by
  intro i
  induction i with
  | zero =>
    intro j
    rw [selfRun]
    by_cases h : j ∈ b2j a (a.getD 0 [])
    · rw [if_pos h]
      exact diagRun_pos a 0 (List.ne_nil_of_mem h)
    · rw [if_neg h]
      omega
  | succ i ih =>
    intro j
    rw [selfRun]
    by_cases h : j ∈ b2j a (a.getD (i + 1) [])
    · rw [if_pos h, diagRun, if_neg (List.ne_nil_of_mem h)]
      by_cases h0 : j = 0
      · rw [if_pos h0]; omega
      · rw [if_neg h0]
        have := ih (j - 1)
        omega
    · rw [if_neg h]
      omega

/-- A run ending at `(i, j)` is no longer than the diagonal run ending at
column `j`. -/
theorem selfRun_le_col (a : List Tok) : ∀ i j, selfRun a i j ≤ diagRun a j := by
  intro i
  induction i with
  | zero =>
    intro j
    rw [selfRun]
    by_cases h : j ∈ b2j a (a.getD 0 [])
    · rw [if_pos h]
      have hj := mem_b2j a (a.getD 0 []) j h
      refine diagRun_pos a j ?_
      rw [hj.2]
      exact List.ne_nil_of_mem h
    · rw [if_neg h]
      omega
  | succ i ih =>
    intro j
    rw [selfRun]
    by_cases h : j ∈ b2j a (a.getD (i + 1) [])
    · rw [if_pos h]
      have hj := mem_b2j a (a.getD (i + 1) []) j h
      have hne : b2j a (a.getD j []) ≠ [] := by
        rw [hj.2]
        exact List.ne_nil_of_mem h
      by_cases h0 : j = 0
      · subst h0
        rw [if_pos rfl, diagRun, if_neg hne]
      · rw [if_neg h0]
        obtain ⟨j', rfl⟩ : ∃ j', j = j' + 1 := ⟨j - 1, by omega⟩
        rw [diagRun, if_neg hne]
        have := ih j'
        simpa using by omega
    · rw [if_neg h]
      omega

/-- On the diagonal the run length is exactly `diagRun`. -/
theorem selfRun_diag (a : List Tok) : ∀ i, i < a.length → selfRun a i i = diagRun a i := by
  intro i
  induction i with
  | zero =>
    intro hi
    rw [selfRun, diagRun]
    by_cases h : b2j a (a.getD 0 []) = []
    · rw [if_pos h, if_neg (fun hm => (h ▸ List.not_mem_nil 0) hm)]
    · rw [if_neg h, if_pos (b2j_self_mem a 0 hi h)]
  | succ i ih =>
    intro hi
    rw [selfRun, diagRun]
    by_cases h : b2j a (a.getD (i + 1) []) = []
    · rw [if_pos h, if_neg (fun hm => (h ▸ List.not_mem_nil (i + 1)) hm)]
    · rw [if_neg h, if_pos (b2j_self_mem a (i + 1) hi h), if_neg (Nat.succ_ne_zero i)]
      rw [Nat.add_sub_cancel, ih (by omega)]

/-- The row map produced by the inner fold: processed columns hold the freshly
computed run length, all others keep their initial value. -/
theorem jfold_map (i : ℕ) (old : ℕ → ℕ) :
    ∀ (js : List ℕ) (acc : (ℕ → ℕ) × ℕ × ℕ × ℕ), js.Nodup →
      ∀ j2, (js.foldl (jStep i old) acc).1 j2 =
        if j2 ∈ js then (if j2 = 0 then 0 else old (j2 - 1)) + 1 else acc.1 j2 := by
  intro js
  induction js with
  | nil =>
    intro acc _ j2
    simp
  | cons j rest ih =>
    intro acc hnd j2
    have hmap : (jStep i old acc j).1 =
        fun j2 => if j2 = j then ((if j = 0 then 0 else old (j - 1)) + 1) else acc.1 j2 := by
      simp only [jStep]
      by_cases hlt : acc.2.2.2 < (if j = 0 then 0 else old (j - 1)) + 1
      · rw [if_pos hlt]
      · rw [if_neg hlt]
    rw [List.foldl_cons, ih (jStep i old acc j) hnd.of_cons j2]
    by_cases h1 : j2 ∈ rest
    · rw [if_pos h1, if_pos (List.mem_cons_of_mem j h1)]
    · rw [if_neg h1, hmap]
      dsimp only
      by_cases h2 : j2 = j
      · subst h2
        rw [if_pos rfl, if_pos (List.mem_cons_self j2 rest)]
      · rw [if_neg h2, if_neg (by simp [h1, h2])]

/-- Core invariant of the self-match dynamic program: scanning the occurrence
list of row `i` in ascending order keeps the running best on the main diagonal,
because an off-diagonal run `(i, j)` is bounded by the diagonal run at
`min i j`, which the best has already absorbed. -/
theorem bfold_diag (a : List Tok) (i : ℕ) (hin : i < a.length) (old : ℕ → ℕ)
    (hkv : ∀ j, j ∈ b2j a (a.getD i []) →
      (if j = 0 then 0 else old (j - 1)) + 1 = selfRun a i j) :
    ∀ (js : List ℕ) (acc : (ℕ → ℕ) × ℕ × ℕ × ℕ),
      js.Pairwise (· < ·) →
      (∀ j ∈ js, j ∈ b2j a (a.getD i [])) →
      acc.2.1 = acc.2.2.1 →
      (∀ i2 < i, diagRun a i2 ≤ acc.2.2.2) →
      (i ∈ js ∨ diagRun a i ≤ acc.2.2.2) →
      (js.foldl (jStep i old) acc).2.1 = (js.foldl (jStep i old) acc).2.2.1 ∧
        (∀ i2 < i, diagRun a i2 ≤ (js.foldl (jStep i old) acc).2.2.2) ∧
        diagRun a i ≤ (js.foldl (jStep i old) acc).2.2.2 := by
  intro js
  induction js with
  | nil =>
    intro acc _ _ heq hlo hdisj
    rcases hdisj with hmem | hle
    · exact absurd hmem (List.not_mem_nil i)
    · exact ⟨heq, hlo, hle⟩
  | cons j rest ih =>
    intro acc hpw hmem heq hlo hdisj
    have hjmem : j ∈ b2j a (a.getD i []) := hmem j (List.mem_cons_self j rest)
    have hk := hkv j hjmem
    rw [List.foldl_cons]
    by_cases hlt : acc.2.2.2 < selfRun a i j
    · -- the best is updated, and the update must be on the diagonal
      have hij : i = j := by
        rcases Nat.lt_trichotomy j i with hc | hc | hc
        · have h1 : selfRun a i j ≤ diagRun a j := selfRun_le_col a i j
          have h2 : diagRun a j ≤ acc.2.2.2 := hlo j hc
          omega
        · exact hc.symm
        · have hnotin : i ∉ j :: rest := by
            intro hin2
            rcases List.mem_cons.mp hin2 with h | h
            · omega
            · have := (List.pairwise_cons.mp hpw).1 i h
              omega
          have hright : diagRun a i ≤ acc.2.2.2 := by
            rcases hdisj with hmem2 | hle
            · exact absurd hmem2 hnotin
            · exact hle
          have h1 : selfRun a i j ≤ diagRun a i := selfRun_le_row a i j
          omega
      subst hij
      have hdr : selfRun a i i = diagRun a i := selfRun_diag a i hin
      have hstep : (jStep i old acc i).2 =
          (i + 1 - selfRun a i i, i + 1 - selfRun a i i, selfRun a i i) := by
        simp only [jStep]
        rw [hk, if_pos hlt]
      have hnotin : i ∉ rest := by
        intro hin2
        have := (List.pairwise_cons.mp hpw).1 i hin2
        omega
      refine ih (jStep i old acc i) (List.pairwise_cons.mp hpw).2
        (fun x hx => hmem x (List.mem_cons_of_mem i hx))
        (by rw [hstep]) ?_ ?_
      · intro i2 hi2
        rw [hstep]
        show diagRun a i2 ≤ selfRun a i i
        have := hlo i2 hi2
        omega
      · refine Or.inr ?_
        rw [hstep]
        show diagRun a i ≤ selfRun a i i
        omega
    · -- no update: the best (and the invariant) carry over
      have hstep : (jStep i old acc j).2 = acc.2 := by
        simp only [jStep]
        rw [hk, if_neg hlt]
      refine ih (jStep i old acc j) (List.pairwise_cons.mp hpw).2
        (fun x hx => hmem x (List.mem_cons_of_mem j hx))
        (by rw [hstep]; exact heq) (by rw [hstep]; exact hlo) ?_
      rcases hdisj with hmem2 | hle
      · rcases List.mem_cons.mp hmem2 with h | h
        · subst h
          refine Or.inr ?_
          rw [hstep]
          have := selfRun_diag a i hin
          omega
        · exact Or.inl h
      · exact Or.inr (by rw [hstep]; exact hle)

theorem tokPositions_pairwise (x : Tok) (b : List Tok) :
    (tokPositions x b).Pairwise (· < ·) :=
  (List.pairwise_lt_range b.length).sublist (List.filter_sublist _)

theorem b2j_pairwise (b : List Tok) (x : Tok) : (b2j b x).Pairwise (· < ·) := by
  unfold b2j
  by_cases hc : 200 ≤ b.length ∧ b.length / 100 + 1 < (tokPositions x b).length
  · rw [if_pos hc]; exact List.Pairwise.nil
  · rw [if_neg hc]; exact tokPositions_pairwise x b

theorem b2j_filter_self (a : List Tok) (x : Tok) :
    (b2j a x).filter (fun j => decide (0 ≤ j) && decide (j < a.length)) = b2j a x :=
  List.filter_eq_self.mpr (fun j hj => by
    have h := (mem_b2j a x j hj).1
    simp [h])

theorem selfRun_of_not_mem (a : List Tok) (i j : ℕ) (h : j ∉ b2j a (a.getD i [])) :
    selfRun a i j = 0 := by
  cases i with
  | zero => rw [selfRun, if_neg h]
  | succ i => rw [selfRun, if_neg h]

theorem diagRun_of_empty (a : List Tok) (i : ℕ) (h : b2j a (a.getD i []) = []) :
    diagRun a i = 0 := by
  cases i with
  | zero => rw [diagRun, if_pos h]
  | succ i => rw [diagRun, if_pos h]

/-- State of the self-match dynamic program after `m` rows: the row map is
exactly `selfRun` at row `m - 1`, and the running best is a diagonal match at
least as long as every diagonal run seen so far. -/
theorem flmDP_self (a : List Tok) :
    ∀ m, m ≤ a.length →
      (∀ j2, (flmDP a a 0 m 0 a.length).1 j2 =
        if m = 0 then 0 else selfRun a (m - 1) j2) ∧
      (flmDP a a 0 m 0 a.length).2.1 = (flmDP a a 0 m 0 a.length).2.2.1 ∧
      (∀ i2 < m, diagRun a i2 ≤ (flmDP a a 0 m 0 a.length).2.2.2) := by
  intro m
  induction m with
  | zero =>
    intro _
    rw [flmDP_rows_empty a a 0 0 0 a.length (Nat.le_refl 0)]
    exact ⟨fun j2 => rfl, rfl, fun i2 h => absurd h (Nat.not_lt_zero i2)⟩
  | succ m ih =>
    intro hm
    have hmn : m < a.length := hm
    obtain ⟨ihmap, iheq, ihlo⟩ := ih (Nat.le_of_succ_le hm)
    rw [flmDP_succ a a 0 m 0 a.length (Nat.zero_le m)]
    unfold rowStep
    rw [b2j_filter_self a (a.getD m [])]
    have hkv : ∀ j, j ∈ b2j a (a.getD m []) →
        (if j = 0 then 0 else (flmDP a a 0 m 0 a.length).1 (j - 1)) + 1 = selfRun a m j := by
      intro j hj
      rcases Nat.eq_zero_or_pos j with hj0 | hjpos
      · subst hj0
        rw [if_pos rfl]
        cases m with
        | zero => rw [selfRun, if_pos hj]
        | succ m => rw [selfRun, if_pos hj, if_pos rfl]
      · obtain ⟨j', rfl⟩ : ∃ j', j = j' + 1 := ⟨j - 1, by omega⟩
        rw [if_neg (Nat.succ_ne_zero j'), ihmap (j' + 1 - 1)]
        cases m with
        | zero =>
          rw [if_pos rfl, selfRun, if_pos hj]
        | succ m =>
          rw [if_neg (Nat.succ_ne_zero m), selfRun, if_pos hj,
            if_neg (Nat.succ_ne_zero j')]
          simp
    have hdiag := bfold_diag a m hmn (flmDP a a 0 m 0 a.length).1 hkv
      (b2j a (a.getD m [])) ((fun _ => 0), (flmDP a a 0 m 0 a.length).2)
      (b2j_pairwise a (a.getD m [])) (fun j hj => hj) iheq ihlo ?_
    · have hnd : (b2j a (a.getD m [])).Nodup :=
        (b2j_pairwise a (a.getD m [])).imp Nat.ne_of_lt
      refine ⟨?_, hdiag.1, ?_⟩
      · intro j2
        rw [jfold_map m (flmDP a a 0 m 0 a.length).1 (b2j a (a.getD m []))
          ((fun _ => 0), (flmDP a a 0 m 0 a.length).2) hnd j2]
        rw [if_neg (Nat.succ_ne_zero m), Nat.add_sub_cancel]
        by_cases hj2 : j2 ∈ b2j a (a.getD m [])
        · rw [if_pos hj2, hkv j2 hj2]
        · rw [if_neg hj2, selfRun_of_not_mem a m j2 hj2]
      · intro i2 hi2
        rcases Nat.lt_succ_iff_lt_or_eq.mp hi2 with h | h
        · exact hdiag.2.1 i2 h
        · subst h
          exact hdiag.2.2
    · by_cases hne : b2j a (a.getD m []) = []
      · refine Or.inr ?_
        rw [diagRun_of_empty a m hne]
        omega
      · exact Or.inl (b2j_self_mem a m hmn hne)

/-- The left extension of a diagonal self-match runs all the way to the start. -/
theorem extendLeft_self (a : List Tok) : ∀ i k, extendLeft a a 0 0 i i k = (0, 0, i + k) := by
  intro i
  induction i with
  | zero =>
    intro k
    rw [extendLeft, dif_neg (by simp)]
    rw [Nat.zero_add]
  | succ i ih =>
    intro k
    rw [extendLeft, dif_pos ⟨Nat.succ_pos i, Nat.succ_pos i, rfl⟩]
    simp only [Nat.add_sub_cancel]
    rw [ih (k + 1)]
    have harith : i + (k + 1) = i + 1 + k := by omega
    rw [harith]

/-- The right extension of a diagonal self-match starting at the origin runs to
the end of the range. -/
theorem extendRight_self (a : List Tok) (n : ℕ) :
    ∀ k, k ≤ n → extendRight a a n n 0 0 k = (0, 0, n) := by
  intro k
  induction k using extendRight.induct a a n n 0 0 with
  | case1 k h ih =>
    intro _
    rw [extendRight, dif_pos h]
    exact ih (by omega)
  | case2 k h =>
    intro hk
    have hkn : ¬0 + k < n := fun hlt => h ⟨hlt, hlt, rfl⟩
    rw [extendRight, dif_neg h, Prod.mk.injEq, Prod.mk.injEq]
    omega

/-- `find_longest_match` of a sequence against itself over the full range
returns the whole sequence. -/
theorem flm_self (a : List Tok) :
    findLongestMatch a a 0 a.length 0 a.length = (0, 0, a.length) := by
  have hself := flmDP_self a a.length (Nat.le_refl _)
  have hok := (flmDP_ok a a 0 0 a.length a.length).2
  simp only [findLongestMatch]
  set dp := (flmDP a a 0 a.length 0 a.length).2 with hdp
  have heq : dp.1 = dp.2.1 := hself.2.1
  rcases hok with hzero | ⟨hk, h1, h2, h3, h4⟩
  · rw [hzero]
    simp only []
    rw [extendLeft, dif_neg (by simp)]
    simp only []
    exact extendRight_self a a.length 0 (Nat.zero_le _)
  · have hL : extendLeft a a 0 0 dp.1 dp.2.1 dp.2.2 = (0, 0, dp.1 + dp.2.2) := by
      rw [← heq]
      exact extendLeft_self a dp.1 dp.2.2
    rw [hL]
    simp only []
    exact extendRight_self a a.length (dp.1 + dp.2.2) h2

/-- Matching a sequence against itself matches every element. -/
theorem matchingTotal_self (a : List Tok) :
    matchingTotal a a 0 a.length 0 a.length = a.length := by
  rw [matchingTotal_eq, flm_self]
  simp only []
  rcases Nat.eq_zero_or_pos a.length with h0 | hpos
  · rw [h0]
    simp
  · rw [if_neg (by omega), if_neg (by simp), if_neg (by omega)]
    omega

/-- `SequenceMatcher(None, a, a).ratio()` is `1.0` for every token sequence,
popular tokens included: the extension loops rebuild the full diagonal even
when `autojunk` has purged entries. -/
theorem ratioOf_self (a : List Tok) : ratioOf a a = 1 := by
  unfold ratioOf
  rcases Nat.eq_zero_or_pos a.length with h0 | hpos
  · rw [if_neg (by omega)]
  · rw [matchingTotal_self, if_pos (by omega)]
    have hne : (a.length : ℚ) ≠ 0 := by
      have := Nat.pos_iff_ne_zero.mp hpos
      exact_mod_cast this
    field_simp
    ring

/-! ### Waveform cross-correlation (match-audio.py / sync-second-room-audio.py) -/

/-- The analysis sample rate of the waveform scripts
(`ANALYSIS_SAMPLE_RATE = 8000`). -/
def ANALYSIS_SAMPLE_RATE : ℕ := 8000

/-- The `1e-10` guard added to the standard deviation. -/
def EPS : ℚ := 1 / 10 ^ 10

/-- `np.mean` (0 on the empty list, where NumPy would return NaN — the scripts
only use it on decoded, nonempty signals). -/
def npMean (s : List ℚ) : ℚ := s.sum / s.length

/-- The variance `np.std(s) ** 2 = mean((s - mean(s))**2)`. -/
def npVar (s : List ℚ) : ℚ := npMean (s.map (fun x => (x - npMean s) ^ 2))

/-- `np.abs` on a scalar. -/
def pyAbs (q : ℚ) : ℚ := if q < 0 then -q else q

/-- `(signal - np.mean(signal)) / (np.std(signal) + 1e-10)`; `np.std` is
`sqrtFn` applied to the variance, the square root being abstracted as a
function argument (see the file header). -/
def normalizeSig (sqrtFn : ℚ → ℚ) (s : List ℚ) : List ℚ :=
  s.map (fun x => (x - npMean s) / (sqrtFn (npVar s) + EPS))

/-- Signal value at a (possibly negative) integer index, 0 out of range. -/
def getZ (s : List ℚ) (i : ℤ) : ℚ :=
  if 0 ≤ i then s.getD i.toNat 0 else 0

/-- `scipy.signal.correlate(a, v, mode='full')`: entry `i` (for
`0 ≤ i < len(a) + len(v) - 1`) is `Σ n, a[n + i - len(v) + 1] * v[n]` — the
full linear cross-correlation, to which the FFT method is algorithmically
equivalent. -/
def correlateFull (a v : List ℚ) : List ℚ :=
  (List.range (a.length + v.length - 1)).map (fun (i : ℕ) =>
    ((List.range v.length).map (fun (n : ℕ) =>
      getZ a ((n : ℤ) + (i : ℤ) - (v.length : ℤ) + 1) * v.getD n 0)).sum)

/-- `np.argmax(np.abs(l))`: the first index attaining the maximal absolute
value (NumPy returns the first occurrence of the maximum). -/
def argmaxAbs (l : List ℚ) : ℕ :=
  (List.range l.length).foldl
    (fun best i => if pyAbs (l.getD best 0) < pyAbs (l.getD i 0) then i else best) 0

/-- `cross_correlate(signal1, signal2)` of `match-audio.py` (lines 62-89) and
`sync-second-room-audio.py` (lines 72-83), which are identical: normalize both
signals, take the full cross-correlation, locate the peak of its absolute
value, and return `(offset, score)` with `offset = peak_idx - len(s2) + 1` and
`score = peak_value / len(s1)` (lengths of the normalized signals). -/
def cross_correlate (sqrtFn : ℚ → ℚ) (signal1 signal2 : List ℚ) : ℤ × ℚ :=
  let s1 := normalizeSig sqrtFn signal1
  let s2 := normalizeSig sqrtFn signal2
  let correlation := correlateFull s1 s2
  let peakIdx := argmaxAbs correlation
  let peakValue := pyAbs (correlation.getD peakIdx 0)
  ((peakIdx : ℤ) - (s2.length : ℤ) + 1, peakValue / s1.length)

/-- `offset_seconds = offset_samples / ANALYSIS_SAMPLE_RATE` as computed in the
candidate loops (sync-second-room-audio.py line 116, match-audio.py line 140). -/
def offsetSeconds (offsetSamples : ℤ) : ℚ :=
  (offsetSamples : ℚ) / (ANALYSIS_SAMPLE_RATE : ℚ)

/-- The candidate loop of `find_best_match` in `sync-second-room-audio.py`
(lines 95-123; the loop of match-audio.py lines 123-149 is the same): the
already-decoded video samples are compared against every candidate; a candidate
whose extraction failed (`none`) is skipped; starting from
`best_match, best_score, best_offset = None, 0, 0`, the best is replaced only
on a strictly greater score (`if score > best_score`). -/
def find_best_match_go (sqrtFn : ℚ → ℚ) (video_samples : List ℚ)
    (st : Option String × ℚ × ℚ) (cands : List (String × Option (List ℚ))) :
    Option String × ℚ × ℚ :=
  cands.foldl (fun st c =>
    match c.2 with
    | none => st
    | some ext_samples =>
      let r := cross_correlate sqrtFn video_samples ext_samples
      if st.2.2 < r.2 then (some c.1, offsetSeconds r.1, r.2) else st)
    st

/-- `find_best_match` proper: the loop started from
`best_match, best_score, best_offset = None, 0, 0`. -/
def find_best_match (sqrtFn : ℚ → ℚ) (video_samples : List ℚ)
    (cands : List (String × Option (List ℚ))) : Option String × ℚ × ℚ :=
  find_best_match_go sqrtFn video_samples (none, 0, 0) cands

/-- The matching loop of `match-audio-transcription.py` `main` (lines 292-304):
for each transcribed candidate compute `text_similarity`; on a strictly greater
score record the candidate and estimate the offset with
`find_time_offset_by_words`; start from
`best_match, best_score, best_offset = None, 0, 0`. -/
def transcription_best_match_go (video_transcript : PyStr)
    (st : Option String × ℚ × ℚ) (audio_transcripts : List (String × PyStr)) :
    Option String × ℚ × ℚ :=
  audio_transcripts.foldl (fun st c =>
    let score := text_similarity video_transcript c.2
    if st.2.2 < score then
      (some c.1, find_time_offset_by_words video_transcript c.2, score)
    else st)
    st

/-- The matching loop proper, started from
`best_match, best_score, best_offset = None, 0, 0`. -/
def transcription_best_match (video_transcript : PyStr)
    (audio_transcripts : List (String × PyStr)) : Option String × ℚ × ℚ :=
  transcription_best_match_go video_transcript (none, 0, 0) audio_transcripts

/-! ### Threshold policies, audio filters, and batch traces -/

/-- `MIN_SCORE_THRESHOLD = 0.05` of sync-second-room-audio.py (floats modelled
as exact rationals). -/
def MIN_SCORE_THRESHOLD : ℚ := 5 / 100

/-- sync-second-room-audio.py line 223: the synced output is produced iff
`not args.dry_run and score >= MIN_SCORE_THRESHOLD`. -/
def syncDoSync (dryRun : Bool) (score : ℚ) : Bool :=
  !dryRun && decide (MIN_SCORE_THRESHOLD ≤ score)

/-- match-audio-transcription.py line 311: the synced output is produced iff
`not args.dry_run and best_score > 0.3` — a strict comparison. -/
def transcriptionDoSync (dryRun : Bool) (score : ℚ) : Bool :=
  !dryRun && decide ((3 : ℚ) / 10 < score)

/-- match-audio.py lines 228-233: when `score < threshold` the user is prompted
and the script proceeds only on answer `y` (`response.lower() != 'y'` exits);
otherwise it proceeds without a prompt. -/
def matchAudioProceeds (score threshold : ℚ) (response : PyStr) : Bool :=
  if score < threshold then decide (pyLower response = ['y']) else true

/-- The ffmpeg `-af` filter built by the three `replace_audio` implementations. -/
inductive AudioFilter
  | adelay (ms : ℤ)
  | atrim (start : ℚ) (resetPts : Bool)
deriving DecidableEq

/-- Python `int()`: truncation toward zero. -/
def pyInt (q : ℚ) : ℤ := if 0 ≤ q then ⌊q⌋ else -⌊-q⌋

/-- `replace_audio` of match-audio.py (lines 152-175): a nonnegative offset
delays the external audio (`adelay={int(offset*1000)}|{...}`), a negative
offset trims its start (`atrim=start={-offset}`). -/
def replace_audio_filter_match_audio (offset_seconds : ℚ) : AudioFilter :=
  if 0 ≤ offset_seconds then AudioFilter.adelay (pyInt (offset_seconds * 1000))
  else AudioFilter.atrim (-offset_seconds) false

/-- `replace_audio` of sync-second-room-audio.py (lines 126-147): the same
filter construction as match-audio.py. -/
def replace_audio_filter_sync (offset_seconds : ℚ) : AudioFilter :=
  if 0 ≤ offset_seconds then AudioFilter.adelay (pyInt (offset_seconds * 1000))
  else AudioFilter.atrim (-offset_seconds) false

/-- `replace_audio` of match-audio-transcription.py (lines 141-164): the
opposite mapping — a nonnegative offset trims the external audio's start
(`atrim=start={offset},asetpts=PTS-STARTPTS`), a negative offset delays it
(`adelay={int(-offset*1000)}|{...}`). -/
def replace_audio_filter_transcription (offset_seconds : ℚ) : AudioFilter :=
  if 0 ≤ offset_seconds then AudioFilter.atrim offset_seconds true
  else AudioFilter.adelay (pyInt (-offset_seconds * 1000))

/-- External decode/transcribe calls made by the batch scripts. -/
inductive MediaOp
  | decodeRef (v : String)
  | decodeCand (c : String)
  | transcribeRef (v : String)
  | transcribeCand (c : String)
deriving DecidableEq

/-- Decode calls of `sync-second-room-audio.py` `main` (lines 193-231) together
with `find_best_match` (lines 95-123): every tagged video that exists on disk
has its audio extracted once, and when that succeeds `extract_audio` is invoked
afresh for every candidate audio file — candidate samples are not reused across
references. A video is `(name, processedExists, refExtractOk)`. -/
def syncBatchDecodeTrace (videos : List (String × Bool × Bool)) (cands : List String) :
    List MediaOp :=
  videos.bind (fun v =>
    if v.2.1 then
      MediaOp.decodeRef v.1 :: (if v.2.2 then cands.map MediaOp.decodeCand else [])
    else [])

/-- The "TRANSCRIBING AUDIO FILES" phase of match-audio-transcription.py
(lines 228-253): a candidate `(path, extractOk)` is skipped when
`"audio:" ++ path` is already a cache key; otherwise, when extraction succeeds,
it is transcribed once and its key enters the in-memory cache (so even a
duplicated listing of the same path is transcribed at most once). Returns the
emitted transcription calls and the final cache keys. -/
def audioTranscribePhaseGo (st : List MediaOp × List String)
    (files : List (String × Bool)) : List MediaOp × List String :=
  files.foldl (fun st f =>
    if ("audio:" ++ f.1) ∈ st.2 then st
    else if f.2 then
      (st.1 ++ [MediaOp.transcribeCand f.1], st.2 ++ ["audio:" ++ f.1])
    else st)
    st

/-- The audio transcription phase proper, from an empty op trace and the loaded
cache. -/
def audioTranscribePhase (cache : List String) (files : List (String × Bool)) :
    List MediaOp × List String :=
  audioTranscribePhaseGo ([], cache) files

/-- The matching phase of match-audio-transcription.py (lines 262-322)
transcribes only video (reference) audio, never a candidate: a video
`(name, processedExists, extractOk)` is transcribed when its processed file
exists, `"video:" ++ name` is not cached, and extraction succeeds. (Video names
are keys of the tags dictionary, hence distinct.) -/
def videoMatchPhase (cache : List String) (videos : List (String × Bool × Bool)) :
    List MediaOp :=
  videos.bind (fun v =>
    if v.2.1 then
      if ("video:" ++ v.1) ∈ cache then []
      else if v.2.2 then [MediaOp.transcribeRef v.1] else []
    else [])

/-- Persistence operations on the transcripts cache. -/
inductive CacheOp
  | put (key : String)
  | save
deriving DecidableEq

/-- Cache operations of the audio-files loop of match-audio-transcription.py
(lines 228-253): one `put` per newly computed transcript, and a single
`save_transcripts_cache` after the whole loop (line 253). -/
def audioPhaseCacheGo (st : List CacheOp × List String)
    (files : List (String × Bool)) : List CacheOp × List String :=
  files.foldl (fun st f =>
    if ("audio:" ++ f.1) ∈ st.2 then st
    else if f.2 then
      (st.1 ++ [CacheOp.put ("audio:" ++ f.1)], st.2 ++ ["audio:" ++ f.1])
    else st)
    st

/-- The audio-loop cache trace proper: the loop's puts followed by the single
trailing save of line 253. -/
def audioPhaseCacheOps (cache : List String) (files : List (String × Bool)) :
    List CacheOp :=
  (audioPhaseCacheGo ([], cache) files).1 ++ [CacheOp.save]

/-- Cache operations of the video loop of match-audio-transcription.py
(lines 274-289): a newly transcribed video's `put` is immediately followed by
`save_transcripts_cache` (lines 288-289). -/
def videoPhaseCacheOps (cache : List String) (videos : List (String × Bool × Bool)) :
    List CacheOp :=
  videos.bind (fun v =>
    if v.2.1 then
      if ("video:" ++ v.1) ∈ cache then []
      else if v.2.2 then [CacheOp.put ("video:" ++ v.1), CacheOp.save] else []
    else [])

/-- Whether every `put` in a cache-operation trace is immediately followed by a
`save`. -/
def everyPutSaved : List CacheOp → Bool
  | [] => true
  | CacheOp.put _ :: rest =>
    match rest with
    | CacheOp.save :: _ => everyPutSaved rest
    | _ => false
  | CacheOp.save :: rest => everyPutSaved rest

theorem pyAbs_nonneg (q : ℚ) : 0 ≤ pyAbs q := by
  unfold pyAbs
  by_cases h : q < 0
  · rw [if_pos h]; linarith
  · rw [if_neg h]; linarith

/-- The waveform score `peak_value / len(s1)` is never negative, whatever the
square-root values are. -/
theorem cross_correlate_score_nonneg (sqrtFn : ℚ → ℚ) (s1 s2 : List ℚ) :
    0 ≤ (cross_correlate sqrtFn s1 s2).2 := by
  unfold cross_correlate
  simp only []
  exact div_nonneg (pyAbs_nonneg _) (by positivity)

theorem text_similarity_nonneg (t1 t2 : PyStr) : 0 ≤ text_similarity t1 t2 :=
  (ratioOf_bounds (tokens t1) (tokens t2)).1

/-! ### Claim C5 -/

/-- C5 (amended): sync-second-room-audio.py gates the sync on
`score >= MIN_SCORE_THRESHOLD` (equality does trigger the sync);
match-audio-transcription.py uses the strict `best_score > 0.3`, so a winner
whose score equals the threshold does **not** trigger the sync; match-audio.py
proceeds without a prompt iff `score >= threshold`, and below the threshold it
can still proceed on an explicit `y` confirmation. -/
theorem C5_threshold_policies :
    (∀ (d : Bool) (s : ℚ), syncDoSync d s = true ↔ d = false ∧ MIN_SCORE_THRESHOLD ≤ s) ∧
    syncDoSync false MIN_SCORE_THRESHOLD = true ∧
    (∀ (d : Bool) (s : ℚ), transcriptionDoSync d s = true ↔ d = false ∧ (3 : ℚ) / 10 < s) ∧
    transcriptionDoSync false (3 / 10) = false ∧
    (∀ (s t : ℚ) (r : PyStr), matchAudioProceeds s t r = true ↔
      (t ≤ s ∨ pyLower r = ['y'])) := by
  refine ⟨?_, ?_, ?_, ?_, ?_⟩
  · intro d s
    cases d <;> simp [syncDoSync]
  · simp [syncDoSync]
  · intro d s
    cases d <;> simp [transcriptionDoSync]
  · simp [transcriptionDoSync]
  · intro s t r
    unfold matchAudioProceeds
    by_cases h : s < t
    · rw [if_pos h, decide_eq_true_eq]
      constructor
      · exact fun hy => Or.inr hy
      · intro hor
        rcases hor with h1 | h1
        · exact absurd h (not_lt.mpr h1)
        · exact h1
    · rw [if_neg h]
      constructor
      · exact fun _ => Or.inl (not_lt.mp h)
      · exact fun _ => rfl

theorem C5_threshold_policies_witness :
    syncDoSync false (5 / 100) = true ∧ transcriptionDoSync false (2 / 5) = true ∧
      matchAudioProceeds (1 / 10) (1 / 10) ['n'] = true :=
  ⟨(C5_threshold_policies.1 false (5 / 100)).mpr ⟨rfl, by norm_num [MIN_SCORE_THRESHOLD]⟩,
    (C5_threshold_policies.2.2.1 false (2 / 5)).mpr ⟨rfl, by norm_num⟩,
    (C5_threshold_policies.2.2.2.2 (1 / 10) (1 / 10) ['n']).mpr (Or.inl le_rfl)⟩

/-- C5 is refuted as stated: in match-audio-transcription.py a winner whose
score equals the 0.3 threshold does not trigger the sync (the check is strict). -/
theorem C5_counterexample : transcriptionDoSync false (3 / 10) = false := by
  simp [transcriptionDoSync]

/-! ### Claim C6 -/

/-- C6 (amended): match-audio.py and sync-second-room-audio.py build identical
filters and follow the §4.2 convention (nonnegative offset → delay by
`int(offset·1000)` ms, negative offset → trim `-offset` seconds);
match-audio-transcription.py applies the opposite mapping (nonnegative offset →
trim `offset` seconds with a PTS reset, negative offset → delay by
`int(-offset·1000)` ms), consistent with its own offset-sign docstring. -/
theorem C6_replace_audio :
    (∀ o : ℚ, replace_audio_filter_match_audio o = replace_audio_filter_sync o) ∧
    (∀ o : ℚ, 0 ≤ o →
      replace_audio_filter_match_audio o = AudioFilter.adelay (pyInt (o * 1000)) ∧
      replace_audio_filter_transcription o = AudioFilter.atrim o true) ∧
    (∀ o : ℚ, o < 0 →
      replace_audio_filter_match_audio o = AudioFilter.atrim (-o) false ∧
      replace_audio_filter_transcription o = AudioFilter.adelay (pyInt (-o * 1000))) := by
  refine ⟨fun o => rfl, ?_, ?_⟩
  · intro o h
    unfold replace_audio_filter_match_audio replace_audio_filter_transcription
    rw [if_pos h, if_pos h]
    exact ⟨rfl, rfl⟩
  · intro o h
    unfold replace_audio_filter_match_audio replace_audio_filter_transcription
    rw [if_neg (not_le.mpr h), if_neg (not_le.mpr h)]
    exact ⟨rfl, rfl⟩

theorem C6_replace_audio_witness :
    (0 : ℚ) ≤ 1 ∧ (-1 : ℚ) < 0 ∧
      (replace_audio_filter_match_audio 1 = AudioFilter.adelay (pyInt (1 * 1000)) ∧
        replace_audio_filter_transcription 1 = AudioFilter.atrim 1 true) ∧
      (replace_audio_filter_match_audio (-1) = AudioFilter.atrim (-(-1)) false ∧
        replace_audio_filter_transcription (-1) = AudioFilter.adelay (pyInt (-(-1) * 1000))) :=
  ⟨by norm_num, by norm_num, C6_replace_audio.2.1 1 (by norm_num),
    C6_replace_audio.2.2 (-1) (by norm_num)⟩

/-- C6 is refuted as stated: at offset `+1 s` the transcription script trims
the candidate's start while the other two scripts delay it, so the three
`replace_audio` implementations are not equivalent. -/
theorem C6_counterexample :
    replace_audio_filter_transcription 1 = AudioFilter.atrim 1 true ∧
    replace_audio_filter_match_audio 1 = AudioFilter.adelay 1000 ∧
    replace_audio_filter_transcription 1 ≠ replace_audio_filter_match_audio 1 := by
  have h1 : replace_audio_filter_transcription 1 = AudioFilter.atrim 1 true := by
    unfold replace_audio_filter_transcription
    rw [if_pos (by norm_num)]
  have h2 : replace_audio_filter_match_audio 1 = AudioFilter.adelay 1000 := by
    unfold replace_audio_filter_match_audio
    rw [if_pos (by norm_num)]
    norm_num [pyInt]
  exact ⟨h1, h2, by rw [h1, h2]; simp⟩

/-! ### Claim C2 -/

/-- The audio transcription loop transcribes a candidate at most once: once a
candidate's key is in the in-memory cache, later occurrences are skipped. -/
theorem audioGo_count (c : String) :
    ∀ (files : List (String × Bool)) (st : List MediaOp × List String),
      st.1.count (MediaOp.transcribeCand c) ≤ 1 →
      (1 ≤ st.1.count (MediaOp.transcribeCand c) → ("audio:" ++ c) ∈ st.2) →
      (audioTranscribePhaseGo st files).1.count (MediaOp.transcribeCand c) ≤ 1 := by
  intro files
  induction files with
  | nil => intro st h1 _; exact h1
  | cons f rest ih =>
    intro st h1 h2
    by_cases hc : ("audio:" ++ f.1) ∈ st.2
    · have hre : audioTranscribePhaseGo st (f :: rest) = audioTranscribePhaseGo st rest := by
        unfold audioTranscribePhaseGo
        rw [List.foldl_cons, if_pos hc]
      rw [hre]
      exact ih st h1 h2
    · by_cases hok : f.2 = true
      · have hre : audioTranscribePhaseGo st (f :: rest) = audioTranscribePhaseGo
            (st.1 ++ [MediaOp.transcribeCand f.1], st.2 ++ ["audio:" ++ f.1]) rest := by
          unfold audioTranscribePhaseGo
          rw [List.foldl_cons, if_neg hc, if_pos hok]
        rw [hre]
        by_cases hcc : f.1 = c
        · subst hcc
          have hz : st.1.count (MediaOp.transcribeCand f.1) = 0 := by
            by_contra hnz
            exact hc (h2 (by omega))
          refine ih _ ?_ ?_
          · rw [List.count_append, hz]
            simp
          · intro _
            exact List.mem_append_right _ (List.mem_singleton.mpr rfl)
        · have hsingle : ([MediaOp.transcribeCand f.1].count (MediaOp.transcribeCand c)) = 0 := by
            simp [List.count_cons]
            intro hcon
            exact hcc hcon
          refine ih _ ?_ ?_
          · rw [List.count_append, hsingle]
            omega
          · intro hge
            rw [List.count_append, hsingle] at hge
            exact List.mem_append_left _ (h2 (by omega))
      · have hre : audioTranscribePhaseGo st (f :: rest) = audioTranscribePhaseGo st rest := by
          unfold audioTranscribePhaseGo
          rw [List.foldl_cons, if_neg hc, if_neg hok]
        rw [hre]
        exact ih st h1 h2

/-- The video matching phase never transcribes a candidate. -/
theorem videoMatchPhase_no_cand (cache : List String) (videos : List (String × Bool × Bool))
    (c : String) : (videoMatchPhase cache videos).count (MediaOp.transcribeCand c) = 0 := by
  induction videos with
  | nil => rfl
  | cons v rest ih =>
    have hre : videoMatchPhase cache (v :: rest) =
        (if v.2.1 then
          if ("video:" ++ v.1) ∈ cache then []
          else if v.2.2 then [MediaOp.transcribeRef v.1] else []
        else []) ++ videoMatchPhase cache rest := rfl
    rw [hre, List.count_append, ih]
    by_cases h1 : v.2.1 = true
    · rw [if_pos h1]
      by_cases h2 : ("video:" ++ v.1) ∈ cache
      · rw [if_pos h2]
        simp
      · rw [if_neg h2]
        by_cases h3 : v.2.2 = true
        · rw [if_pos h3]
          simp [List.count_cons]
        · rw [if_neg h3]
          simp
    · rw [if_neg h1]
      simp

/-- In the sync script every existing, decodable reference re-decodes the whole
candidate pool. -/
theorem syncBatch_count (videos : List (String × Bool × Bool)) (cands : List String)
    (c : String) :
    (syncBatchDecodeTrace videos cands).count (MediaOp.decodeCand c) =
      (videos.filter (fun v => v.2.1 && v.2.2)).length * cands.count c := by
  induction videos with
  | nil => simp [syncBatchDecodeTrace]
  | cons v rest ih =>
    have hre : syncBatchDecodeTrace (v :: rest) cands =
        (if v.2.1 then
          MediaOp.decodeRef v.1 :: (if v.2.2 then cands.map MediaOp.decodeCand else [])
        else []) ++ syncBatchDecodeTrace rest cands := rfl
    rw [hre, List.count_append, ih]
    by_cases h1 : v.2.1 = true
    · rw [if_pos h1]
      by_cases h2 : v.2.2 = true
      · rw [if_pos h2, List.filter_cons_of_pos (by simp [h1, h2]), List.length_cons,
          Nat.succ_mul, List.count_cons]
        have hmap : (cands.map MediaOp.decodeCand).count (MediaOp.decodeCand c) =
            cands.count c :=
          List.count_map_of_injective cands MediaOp.decodeCand
            (fun x y hxy => by cases hxy; rfl) c
        simp [hmap]
        omega
      · rw [if_neg h2, List.filter_cons_of_neg (by simp [h2]), List.count_cons]
        simp
    · rw [if_neg h1, List.filter_cons_of_neg (by simp [h1])]
      simp

/-- C2 (amended): in match-audio-transcription.py every candidate is
transcribed at most once per batch run (the upfront loop transcribes uncached
candidates once, the video loop never transcribes candidates); in
sync-second-room-audio.py, by contrast, the candidate pool is re-decoded for
every successfully decoded reference: each candidate occurrence is decoded once
per such reference. -/
theorem C2_candidate_work :
    (∀ (cache : List String) (files : List (String × Bool))
        (videos : List (String × Bool × Bool)) (c : String),
      ((audioTranscribePhase cache files).1 ++
          videoMatchPhase (audioTranscribePhase cache files).2 videos).count
        (MediaOp.transcribeCand c) ≤ 1) ∧
    (∀ (videos : List (String × Bool × Bool)) (cands : List String) (c : String),
      (syncBatchDecodeTrace videos cands).count (MediaOp.decodeCand c) =
        (videos.filter (fun v => v.2.1 && v.2.2)).length * cands.count c) := by
  constructor
  · intro cache files videos c
    rw [List.count_append, videoMatchPhase_no_cand]
    have h := audioGo_count c files ([], cache) (by simp) (by simp)
    unfold audioTranscribePhase
    omega
  · exact syncBatch_count

theorem C2_candidate_work_witness :
    ((audioTranscribePhase [] [("c", true), ("c", true)]).1 ++
        videoMatchPhase (audioTranscribePhase [] [("c", true), ("c", true)]).2
          [("v", true, true)]).count (MediaOp.transcribeCand "c") ≤ 1 :=
  C2_candidate_work.1 [] [("c", true), ("c", true)] [("v", true, true)] "c"

/-- C2 is refuted as stated for sync-second-room-audio.py: with two references
and one candidate, the candidate is decoded twice in one batch run. -/
theorem C2_counterexample :
    (syncBatchDecodeTrace [("v1", true, true), ("v2", true, true)] ["c"]).count
      (MediaOp.decodeCand "c") = 2 := by
  decide

/-! ### Claim C3 -/

/-- Every put in the video loop's cache trace is immediately followed by a
save. -/
theorem videoCacheOps_everyPutSaved (cache : List String)
    (videos : List (String × Bool × Bool)) :
    everyPutSaved (videoPhaseCacheOps cache videos) = true := by
  induction videos with
  | nil => rfl
  | cons v rest ih =>
    have hre : videoPhaseCacheOps cache (v :: rest) =
        (if v.2.1 then
          if ("video:" ++ v.1) ∈ cache then []
          else if v.2.2 then [CacheOp.put ("video:" ++ v.1), CacheOp.save] else []
        else []) ++ videoPhaseCacheOps cache rest := rfl
    rw [hre]
    by_cases h1 : v.2.1 = true
    · rw [if_pos h1]
      by_cases h2 : ("video:" ++ v.1) ∈ cache
      · rw [if_pos h2]
        exact ih
      · rw [if_neg h2]
        by_cases h3 : v.2.2 = true
        · rw [if_pos h3]
          exact ih
        · rw [if_neg h3]
          exact ih
    · rw [if_neg h1]
      exact ih

/-- The audio loop's cache trace is a run of puts followed by one final save. -/
theorem audioCacheOps_shape (cache : List String) (files : List (String × Bool)) :
    ∃ pre, audioPhaseCacheOps cache files = pre ++ [CacheOp.save] ∧
      ∀ op ∈ pre, ∃ k, op = CacheOp.put k := by
  refine ⟨(audioPhaseCacheGo ([], cache) files).1, rfl, ?_⟩
  have haux : ∀ (fs : List (String × Bool)) (st : List CacheOp × List String),
      (∀ op ∈ st.1, ∃ k, op = CacheOp.put k) →
      ∀ op ∈ (audioPhaseCacheGo st fs).1, ∃ k, op = CacheOp.put k := by
    intro fs
    induction fs with
    | nil => intro st h; exact h
    | cons f rest ih =>
      intro st h
      by_cases hc : ("audio:" ++ f.1) ∈ st.2
      · have hre : audioPhaseCacheGo st (f :: rest) = audioPhaseCacheGo st rest := by
          unfold audioPhaseCacheGo
          rw [List.foldl_cons, if_pos hc]
        rw [hre]
        exact ih st h
      · by_cases hok : f.2 = true
        · have hre : audioPhaseCacheGo st (f :: rest) = audioPhaseCacheGo
              (st.1 ++ [CacheOp.put ("audio:" ++ f.1)], st.2 ++ ["audio:" ++ f.1]) rest := by
            unfold audioPhaseCacheGo
            rw [List.foldl_cons, if_neg hc, if_pos hok]
          rw [hre]
          refine ih _ ?_
          intro op hop
          rcases List.mem_append.mp hop with h1 | h1
          · exact h op h1
          · exact ⟨_, List.mem_singleton.mp h1⟩
        · have hre : audioPhaseCacheGo st (f :: rest) = audioPhaseCacheGo st rest := by
            unfold audioPhaseCacheGo
            rw [List.foldl_cons, if_neg hc, if_neg hok]
          rw [hre]
          exact ih st h
  exact haux files ([], cache) (by simp)

/-- C3 (amended): in the video loop every newly computed transcript's cache put
is immediately followed by a durable save; in the audio loop the puts are
followed by a single save only after the whole loop, so an interruption during
that loop loses transcripts computed in it. -/
theorem C3_cache_persistence :
    (∀ (cache : List String) (videos : List (String × Bool × Bool)),
      everyPutSaved (videoPhaseCacheOps cache videos) = true) ∧
    (∀ (cache : List String) (files : List (String × Bool)),
      ∃ pre, audioPhaseCacheOps cache files = pre ++ [CacheOp.save] ∧
        ∀ op ∈ pre, ∃ k, op = CacheOp.put k) :=
  ⟨videoCacheOps_everyPutSaved, audioCacheOps_shape⟩

theorem C3_cache_persistence_witness :
    everyPutSaved (videoPhaseCacheOps [] [("v1", true, true), ("v2", true, true)]) = true :=
  C3_cache_persistence.1 [] [("v1", true, true), ("v2", true, true)]

/-- C3 is refuted as stated: in the audio loop two fresh transcripts are both
put before the single save, so the first put is not immediately persisted. -/
theorem C3_counterexample :
    everyPutSaved (audioPhaseCacheOps [] [("a", true), ("b", true)]) = false := by
  decide

/-! ### Claim C9 -/

/-- C9: `find_time_offset_by_words` returns `best_pos / 2.5` for a natural
number `best_pos`, hence is never negative; and it returns exactly 0 whenever
the candidate's token sequence is strictly shorter than the reference query
window (the first 50 reference tokens), because the slide loop's range is then
empty. -/
theorem C9_offset_nonneg (vt atr : PyStr) :
    0 ≤ find_time_offset_by_words vt atr ∧
    (∃ p : ℕ, find_time_offset_by_words vt atr = (p : ℚ) / (5 / 2)) ∧
    ((tokens atr).length < ((tokens vt).take 50).length →
      find_time_offset_by_words vt atr = 0) := by
  refine ⟨?_, ?_, ?_⟩
  · unfold find_time_offset_by_words
    by_cases hempty : (tokens vt).take 50 = [] ∨ tokens atr = []
    · rw [if_pos hempty]
    · rw [if_neg hempty]
      simp only []
      positivity
  · unfold find_time_offset_by_words
    by_cases hempty : (tokens vt).take 50 = [] ∨ tokens atr = []
    · rw [if_pos hempty]
      exact ⟨0, by norm_num⟩
    · rw [if_neg hempty]
      simp only []
      exact ⟨_, rfl⟩
  · intro hlt
    unfold find_time_offset_by_words
    by_cases hempty : (tokens vt).take 50 = [] ∨ tokens atr = []
    · rw [if_pos hempty]
    · rw [if_neg hempty]
      simp only []
      have hc : ¬ ((tokens vt).take 50).length ≤ (tokens atr).length := by omega
      rw [if_neg hc]
      simp

theorem C9_offset_nonneg_witness :
    (tokens "a b".data).length < ((tokens "a b c".data).take 50).length ∧
      find_time_offset_by_words "a b c".data "a b".data = 0 :=
  ⟨by decide, (C9_offset_nonneg "a b c".data "a b".data).2.2 (by decide)⟩

/-! ### Claim C10 -/

theorem find_best_match_go_spec (sqrtFn : ℚ → ℚ) (vs : List ℚ) :
    ∀ (cands : List (String × Option (List ℚ))) (st : Option String × ℚ × ℚ),
      0 ≤ st.2.2 →
      (st.1 = none → st.2.2 = 0) →
      (∀ nm, st.1 = some nm → 0 < st.2.2) →
      (((find_best_match_go sqrtFn vs st cands).1 = none ↔
        st.1 = none ∧ ∀ p ∈ cands, ∀ s, p.2 = some s →
          (cross_correlate sqrtFn vs s).2 ≤ 0) ∧
        (∀ nm, (find_best_match_go sqrtFn vs st cands).1 = some nm →
          0 < (find_best_match_go sqrtFn vs st cands).2.2)) := by
  intro cands
  induction cands with
  | nil =>
    intro st h0 h1 h2
    refine ⟨?_, h2⟩
    constructor
    · intro hn
      exact ⟨hn, fun p hp => absurd hp (List.not_mem_nil p)⟩
    · exact fun h => h.1
  | cons c rest ih =>
    intro st h0 h1 h2
    obtain ⟨nm, opt⟩ := c
    cases opt with
    | none =>
      have hre : find_best_match_go sqrtFn vs st ((nm, none) :: rest) =
          find_best_match_go sqrtFn vs st rest := rfl
      rw [hre]
      obtain ⟨hiff, hpos⟩ := ih st h0 h1 h2
      refine ⟨?_, hpos⟩
      rw [hiff]
      constructor
      · rintro ⟨ha, hb⟩
        refine ⟨ha, ?_⟩
        intro p hp
        rcases List.mem_cons.mp hp with h | h
        · subst h
          intro s hs
          exact absurd hs (by simp)
        · exact hb p h
      · rintro ⟨ha, hb⟩
        exact ⟨ha, fun p hp => hb p (List.mem_cons_of_mem _ hp)⟩
    | some smp =>
      by_cases hlt : st.2.2 < (cross_correlate sqrtFn vs smp).2
      · have hre : find_best_match_go sqrtFn vs st ((nm, some smp) :: rest) =
            find_best_match_go sqrtFn vs
              (some nm, offsetSeconds (cross_correlate sqrtFn vs smp).1,
                (cross_correlate sqrtFn vs smp).2) rest := by
          unfold find_best_match_go
          rw [List.foldl_cons]
          simp only []
          rw [if_pos hlt]
        rw [hre]
        have hspos : 0 < (cross_correlate sqrtFn vs smp).2 := lt_of_le_of_lt h0 hlt
        obtain ⟨hiff, hpos⟩ := ih
          (some nm, offsetSeconds (cross_correlate sqrtFn vs smp).1,
            (cross_correlate sqrtFn vs smp).2)
          (le_of_lt hspos) (fun h => Option.noConfusion h) (fun _ _ => hspos)
        refine ⟨?_, hpos⟩
        rw [hiff]
        constructor
        · rintro ⟨ha, _⟩
          exact absurd ha (by simp)
        · rintro ⟨ha, hb⟩
          have hsc := hb (nm, some smp) (List.mem_cons_self _ _) smp rfl
          have h00 := h1 ha
          rw [h00] at hlt
          exact absurd hsc (not_le.mpr hlt)
      · have hre : find_best_match_go sqrtFn vs st ((nm, some smp) :: rest) =
            find_best_match_go sqrtFn vs st rest := by
          unfold find_best_match_go
          rw [List.foldl_cons]
          simp only []
          rw [if_neg hlt]
        rw [hre]
        obtain ⟨hiff, hpos⟩ := ih st h0 h1 h2
        refine ⟨?_, hpos⟩
        rw [hiff]
        constructor
        · rintro ⟨ha, hb⟩
          refine ⟨ha, ?_⟩
          intro p hp
          rcases List.mem_cons.mp hp with h | h
          · subst h
            intro s hs
            have hs2 : smp = s := by
              have := congrArg (fun o => o) hs
              simpa using hs
            subst hs2
            have h00 := h1 ha
            rw [h00] at hlt
            exact not_lt.mp hlt
          · exact hb p h
        · rintro ⟨ha, hb⟩
          exact ⟨ha, fun p hp => hb p (List.mem_cons_of_mem _ hp)⟩

theorem transcription_best_match_go_spec (vt : PyStr) :
    ∀ (cands : List (String × PyStr)) (st : Option String × ℚ × ℚ),
      0 ≤ st.2.2 →
      (st.1 = none → st.2.2 = 0) →
      (∀ nm, st.1 = some nm → 0 < st.2.2) →
      (((transcription_best_match_go vt st cands).1 = none ↔
        st.1 = none ∧ ∀ p ∈ cands, text_similarity vt p.2 ≤ 0) ∧
        (∀ nm, (transcription_best_match_go vt st cands).1 = some nm →
          0 < (transcription_best_match_go vt st cands).2.2)) := by
  intro cands
  induction cands with
  | nil =>
    intro st h0 h1 h2
    refine ⟨?_, h2⟩
    constructor
    · intro hn
      exact ⟨hn, fun p hp => absurd hp (List.not_mem_nil p)⟩
    · exact fun h => h.1
  | cons c rest ih =>
    intro st h0 h1 h2
    by_cases hlt : st.2.2 < text_similarity vt c.2
    · have hre : transcription_best_match_go vt st (c :: rest) =
          transcription_best_match_go vt
            (some c.1, find_time_offset_by_words vt c.2, text_similarity vt c.2) rest := by
        unfold transcription_best_match_go
        rw [List.foldl_cons]
        simp only []
        rw [if_pos hlt]
      rw [hre]
      have hspos : 0 < text_similarity vt c.2 := lt_of_le_of_lt h0 hlt
      obtain ⟨hiff, hpos⟩ := ih
        (some c.1, find_time_offset_by_words vt c.2, text_similarity vt c.2)
        (le_of_lt hspos) (fun h => Option.noConfusion h) (fun _ _ => hspos)
      refine ⟨?_, hpos⟩
      rw [hiff]
      constructor
      · rintro ⟨ha, _⟩
        exact absurd ha (by simp)
      · rintro ⟨ha, hb⟩
        have hsc := hb c (List.mem_cons_self _ _)
        have h00 := h1 ha
        rw [h00] at hlt
        exact absurd hsc (not_le.mpr hlt)
    · have hre : transcription_best_match_go vt st (c :: rest) =
          transcription_best_match_go vt st rest := by
        unfold transcription_best_match_go
        rw [List.foldl_cons]
        simp only []
        rw [if_neg hlt]
      rw [hre]
      obtain ⟨hiff, hpos⟩ := ih st h0 h1 h2
      refine ⟨?_, hpos⟩
      rw [hiff]
      constructor
      · rintro ⟨ha, hb⟩
        refine ⟨ha, ?_⟩
        intro p hp
        rcases List.mem_cons.mp hp with h | h
        · subst h
          have h00 := h1 ha
          rw [h00] at hlt
          exact not_lt.mp hlt
        · exact hb p h
      · rintro ⟨ha, hb⟩
        exact ⟨ha, fun p hp => hb p (List.mem_cons_of_mem _ hp)⟩

/-- C10: both rankers return no winner exactly when no candidate that produced
a signal/transcript achieved a score strictly greater than 0 (the best score
starts at 0 and is only replaced on strict improvement), and a recorded winner
always has a strictly positive score — so a zero-score candidate is never
selected. -/
theorem C10_ranker_none_iff :
    (∀ (sqrtFn : ℚ → ℚ) (vs : List ℚ) (cands : List (String × Option (List ℚ))),
      ((find_best_match sqrtFn vs cands).1 = none ↔
        ∀ p ∈ cands, ∀ s, p.2 = some s → ¬ 0 < (cross_correlate sqrtFn vs s).2) ∧
      (∀ nm, (find_best_match sqrtFn vs cands).1 = some nm →
        0 < (find_best_match sqrtFn vs cands).2.2)) ∧
    (∀ (vt : PyStr) (cands : List (String × PyStr)),
      ((transcription_best_match vt cands).1 = none ↔
        ∀ p ∈ cands, ¬ 0 < text_similarity vt p.2) ∧
      (∀ nm, (transcription_best_match vt cands).1 = some nm →
        0 < (transcription_best_match vt cands).2.2)) := by
  constructor
  · intro sqrtFn vs cands
    obtain ⟨hiff, hpos⟩ := find_best_match_go_spec sqrtFn vs cands (none, 0, 0)
      le_rfl (fun _ => rfl) (fun nm h => Option.noConfusion h)
    refine ⟨?_, hpos⟩
    unfold find_best_match
    rw [hiff]
    simp only [true_and]
    constructor
    · intro h p hp s hs
      exact not_lt.mpr (h p hp s hs)
    · intro h p hp s hs
      exact not_lt.mp (h p hp s hs)
  · intro vt cands
    obtain ⟨hiff, hpos⟩ := transcription_best_match_go_spec vt cands (none, 0, 0)
      le_rfl (fun _ => rfl) (fun nm h => Option.noConfusion h)
    refine ⟨?_, hpos⟩
    unfold transcription_best_match
    rw [hiff]
    simp only [true_and]
    constructor
    · intro h p hp
      exact not_lt.mpr (h p hp)
    · intro h p hp
      exact not_lt.mp (h p hp)

theorem C10_ranker_none_iff_witness :
    (find_best_match (fun _ => 1) [] [("c", none)]).1 = none ∧
      (transcription_best_match "a".data []).1 = none :=
  ⟨((C10_ranker_none_iff.1 (fun _ => 1) [] [("c", none)]).1).mpr
      (fun p hp s hs => by
        rcases List.mem_singleton.mp hp with rfl
        exact absurd hs (by simp)),
    ((C10_ranker_none_iff.2 "a".data []).1).mpr (fun p hp => absurd hp (List.not_mem_nil p))⟩

/-! ### Claim C7 -/

/-- C7 (amended): transcript similarity is reflexive — `text_similarity(T, T)`
is exactly `1.0` for every transcript, including transcripts whose tokens are
purged by the autojunk heuristic (the extension loops of `find_longest_match`
rebuild the full diagonal match). Symmetry, by contrast, does not hold in
general (see the counterexample). -/
theorem C7_similarity_reflexive (t : PyStr) : text_similarity t t = 1 :=
  ratioOf_self (tokens t)

/-- C7 is refuted on its symmetry half: `text_similarity("a b", "b a c b")` is
`2/3` but `text_similarity("b a c b", "a b")` is `1/3` — `SequenceMatcher`'s
tie-breaking picks different block decompositions under argument swap. -/
theorem C7_counterexample :
    text_similarity "a b".data "b a c b".data = 2 / 3 ∧
    text_similarity "b a c b".data "a b".data = 1 / 3 ∧
    text_similarity "a b".data "b a c b".data ≠
      text_similarity "b a c b".data "a b".data := by
  have hab : text_similarity "a b".data "b a c b".data = 2 / 3 := by
    have h1 : (flmDP (tokens "a b".data) (tokens "b a c b".data) 0 2 0 4).2 = (0, 1, 1) := by
      decide
    have hflm1 : findLongestMatch (tokens "a b".data) (tokens "b a c b".data) 0 2 0 4 =
        (0, 1, 1) := by
      simp only [findLongestMatch]
      rw [h1]
      simp only []
      rw [extendLeft, dif_neg (by decide)]
      simp only []
      rw [extendRight, dif_neg (by decide)]
    have h2 : (flmDP (tokens "a b".data) (tokens "b a c b".data) 1 2 2 4).2 = (1, 3, 1) := by
      decide
    have hflm2 : findLongestMatch (tokens "a b".data) (tokens "b a c b".data) 1 2 2 4 =
        (1, 3, 1) := by
      simp only [findLongestMatch]
      rw [h2]
      simp only []
      rw [extendLeft, dif_neg (by decide)]
      simp only []
      rw [extendRight, dif_neg (by decide)]
    have hm2 : matchingTotal (tokens "a b".data) (tokens "b a c b".data) 1 2 2 4 = 1 := by
      rw [matchingTotal_eq, hflm2]
      simp only []
      rw [if_neg (by decide), if_neg (by decide), if_neg (by decide)]
    have hm1 : matchingTotal (tokens "a b".data) (tokens "b a c b".data) 0 2 0 4 = 2 := by
      rw [matchingTotal_eq, hflm1]
      simp only []
      rw [if_neg (by decide), if_neg (by decide), if_pos (by decide), hm2]
    have hlen1 : (tokens "a b".data).length = 2 := by decide
    have hlen2 : (tokens "b a c b".data).length = 4 := by decide
    unfold text_similarity ratioOf
    simp only []
    rw [hlen1, hlen2, hm1]
    norm_num
  have hba : text_similarity "b a c b".data "a b".data = 1 / 3 := by
    have h1 : (flmDP (tokens "b a c b".data) (tokens "a b".data) 0 4 0 2).2 = (0, 1, 1) := by
      decide
    have hflm1 : findLongestMatch (tokens "b a c b".data) (tokens "a b".data) 0 4 0 2 =
        (0, 1, 1) := by
      simp only [findLongestMatch]
      rw [h1]
      simp only []
      rw [extendLeft, dif_neg (by decide)]
      simp only []
      rw [extendRight, dif_neg (by decide)]
    have hm1 : matchingTotal (tokens "b a c b".data) (tokens "a b".data) 0 4 0 2 = 1 := by
      rw [matchingTotal_eq, hflm1]
      simp only []
      rw [if_neg (by decide), if_neg (by decide), if_neg (by decide)]
    have hlen1 : (tokens "b a c b".data).length = 4 := by decide
    have hlen2 : (tokens "a b".data).length = 2 := by decide
    unfold text_similarity ratioOf
    simp only []
    rw [hlen1, hlen2, hm1]
    norm_num
  refine ⟨hab, hba, ?_⟩
  rw [hab, hba]
  norm_num

/-! ### Claim C8 -/

/-- C8 (amended): when either token sequence is empty the estimated offset is
0; the similarity is 0 when exactly one of the two token sequences is empty,
but when **both** are empty `SequenceMatcher.ratio()` returns `1.0` (the
`T = 0` branch of `_calculate_ratio`), not 0. -/
theorem C8_empty_inputs (t1 t2 : PyStr) :
    ((tokens t1 = [] ∨ tokens t2 = []) → find_time_offset_by_words t1 t2 = 0) ∧
    (tokens t1 = [] → tokens t2 ≠ [] → text_similarity t1 t2 = 0) ∧
    (tokens t1 ≠ [] → tokens t2 = [] → text_similarity t1 t2 = 0) ∧
    (tokens t1 = [] → tokens t2 = [] → text_similarity t1 t2 = 1) := by
  refine ⟨?_, ?_, ?_, ?_⟩
  · intro h
    unfold find_time_offset_by_words
    have hcond : (tokens t1).take 50 = [] ∨ tokens t2 = [] := by
      rcases h with h | h
      · exact Or.inl (by rw [h]; rfl)
      · exact Or.inr h
    rw [if_pos hcond]
  · intro h1 h2
    unfold text_similarity
    rw [h1]
    exact ratioOf_nil_left (tokens t2) h2
  · intro h1 h2
    unfold text_similarity
    rw [h2]
    exact ratioOf_nil_right (tokens t1) h1
  · intro h1 h2
    unfold text_similarity
    rw [h1, h2]
    exact ratioOf_nil_nil

theorem C8_empty_inputs_witness :
    tokens "a".data ≠ [] ∧ tokens " ".data = [] ∧
      text_similarity "a".data " ".data = 0 ∧
      find_time_offset_by_words "a".data " ".data = 0 :=
  ⟨by decide, by decide,
    (C8_empty_inputs "a".data " ".data).2.2.1 (by decide) (by decide),
    (C8_empty_inputs "a".data " ".data).1 (Or.inr (by decide))⟩

/-- C8 is refuted as stated on the both-empty case: two empty transcripts have
similarity `1.0`, not 0. -/
theorem C8_counterexample :
    text_similarity "".data "".data = 1 ∧ (1 : ℚ) ≠ 0 := by
  constructor
  · have h : tokens "".data = [] := by decide
    unfold text_similarity
    rw [h]
    exact ratioOf_nil_nil
  · norm_num

/-! ### Claim C1 -/

theorem normalizeSig_length (sqrtFn : ℚ → ℚ) (s : List ℚ) :
    (normalizeSig sqrtFn s).length = s.length := by
  simp [normalizeSig]

/-- C1: for every pair of non-empty signals, `cross_correlate` returns the
sample offset `argmax(abs(full cross-correlation of the normalized signals))
- len(candidate) + 1`, and the offset in seconds is that sample offset divided
by the shared `ANALYSIS_SAMPLE_RATE`. -/
theorem C1_cross_correlate_offset (sqrtFn : ℚ → ℚ) (ref cand : List ℚ)
    (h1 : ref ≠ []) (h2 : cand ≠ []) :
    (cross_correlate sqrtFn ref cand).1 =
      (argmaxAbs (correlateFull (normalizeSig sqrtFn ref) (normalizeSig sqrtFn cand)) : ℤ)
        - (cand.length : ℤ) + 1 ∧
    offsetSeconds (cross_correlate sqrtFn ref cand).1 =
      ((cross_correlate sqrtFn ref cand).1 : ℚ) / (ANALYSIS_SAMPLE_RATE : ℚ) := by
  constructor
  · show (argmaxAbs (correlateFull (normalizeSig sqrtFn ref) (normalizeSig sqrtFn cand)) : ℤ)
        - ((normalizeSig sqrtFn cand).length : ℤ) + 1 = _
    rw [normalizeSig_length]
  · rfl

theorem C1_cross_correlate_offset_witness :
    ([(1 : ℚ), 0] ≠ ([] : List ℚ)) ∧
    (cross_correlate (fun _ => 1) [1, 0] [1, 0]).1 =
      (argmaxAbs (correlateFull (normalizeSig (fun _ => 1) [1, 0])
        (normalizeSig (fun _ => 1) [1, 0])) : ℤ) - (2 : ℤ) + 1 :=
  ⟨by decide,
    (C1_cross_correlate_offset (fun _ => 1) [1, 0] [1, 0] (by decide) (by decide)).1⟩

/-! ### Claim C4 -/

/-- A square-root oracle that is exact on the two variances arising in the
`C4_counterexample` signals (`npVar [1, 0] = 1/4`, `npVar [1, 0, 0, 0, 0]
= 4/25`), as certified by the side conditions proved there. -/
def sqrtW : ℚ → ℚ := fun v => if v = 1 / 4 then 1 / 2 else if v = 4 / 25 then 2 / 5 else 0

/-- C4 (amended): both matchers' scores are never below 0, and the transcript
matcher's score is also never above 1; but the waveform score
`peak / len(reference)` is not bounded by 1 (see `C4_counterexample`). -/
theorem C4_score_bounds :
    (∀ (sqrtFn : ℚ → ℚ) (s1 s2 : List ℚ), 0 ≤ (cross_correlate sqrtFn s1 s2).2) ∧
    (∀ t1 t2 : PyStr, 0 ≤ text_similarity t1 t2 ∧ text_similarity t1 t2 ≤ 1) :=
  ⟨cross_correlate_score_nonneg, fun t1 t2 => ratioOf_bounds (tokens t1) (tokens t2)⟩

/-- C4 is refuted as stated for the waveform matcher: with reference `[1, 0]`
and candidate `[1, 0, 0, 0, 0]`, the score exceeds 1 (it equals
`25000000000000000000 / 20000000009000000001 ≈ 1.25`). The last four
conjuncts certify that `sqrtW` is the exact square root on both variances
involved, so the run coincides with `np.std`. -/
theorem C4_counterexample :
    1 < (cross_correlate sqrtW [1, 0] [1, 0, 0, 0, 0]).2 ∧
    sqrtW (npVar [1, 0]) ^ 2 = npVar [1, 0] ∧ 0 ≤ sqrtW (npVar [1, 0]) ∧
    sqrtW (npVar [1, 0, 0, 0, 0]) ^ 2 = npVar [1, 0, 0, 0, 0] ∧
    0 ≤ sqrtW (npVar [1, 0, 0, 0, 0]) := by
  have hv1 : npVar [(1 : ℚ), 0] = 1 / 4 := by norm_num [npVar, npMean]
  have hv2 : npVar [(1 : ℚ), 0, 0, 0, 0] = 4 / 25 := by norm_num [npVar, npMean]
  have hn1 : normalizeSig sqrtW [1, 0] =
      [5000000000 / 5000000001, -(5000000000 / 5000000001)] := by
    norm_num [normalizeSig, npMean, npVar, sqrtW, EPS]
  have hn2 : normalizeSig sqrtW [1, 0, 0, 0, 0] =
      [8000000000 / 4000000001, -(2000000000 / 4000000001), -(2000000000 / 4000000001),
        -(2000000000 / 4000000001), -(2000000000 / 4000000001)] := by
    norm_num [normalizeSig, npMean, npVar, sqrtW, EPS]
  have hr6 : List.range 6 = [0, 1, 2, 3, 4, 5] := by decide
  have hr5 : List.range 5 = [0, 1, 2, 3, 4] := by decide
  have ht2 : Int.toNat 2 = 2 := rfl
  have ht3 : Int.toNat 3 = 3 := rfl
  have ht4 : Int.toNat 4 = 4 := rfl
  have ht5 : Int.toNat 5 = 5 := rfl
  have hcorr : correlateFull (normalizeSig sqrtW [1, 0]) (normalizeSig sqrtW [1, 0, 0, 0, 0]) =
      [-(10000000000000000000 / 20000000009000000001), 0, 0, 0,
        50000000000000000000 / 20000000009000000001,
        -(40000000000000000000 / 20000000009000000001)] := by
    rw [hn1, hn2]
    unfold correlateFull
    norm_num [hr6, hr5, getZ, ht2, ht3, ht4, ht5]
  have hmax : argmaxAbs [-(10000000000000000000 / 20000000009000000001), 0, 0, 0,
      (50000000000000000000 : ℚ) / 20000000009000000001,
      -(40000000000000000000 / 20000000009000000001)] = 4 := by
    unfold argmaxAbs
    norm_num [hr6, pyAbs]
  refine ⟨?_, ?_, ?_, ?_, ?_⟩
  · show 1 < pyAbs ((correlateFull (normalizeSig sqrtW [1, 0])
        (normalizeSig sqrtW [1, 0, 0, 0, 0])).getD
        (argmaxAbs (correlateFull (normalizeSig sqrtW [1, 0])
          (normalizeSig sqrtW [1, 0, 0, 0, 0]))) 0) /
        ((normalizeSig sqrtW [1, 0]).length : ℚ)
    rw [hcorr, hmax, hn1]
    norm_num [pyAbs]
  · rw [hv1]; norm_num [sqrtW]
  · rw [hv1]; norm_num [sqrtW]
  · rw [hv2]; norm_num [sqrtW]
  · rw [hv2]; norm_num [sqrtW]
